import Mathlib

/-!
# Verification of the Nervyra clause-matching and rich-text engine

Shallow embedding of `src/nervyra/clause_engine.py` and
`src/nervyra/clipboard_utils.py`.  Python strings are modelled as `List Char`;
Python `set`s of tokens as `Finset (List Char)`; Python `dict`s holding clause
records as a `Clause` structure; the `best_for_key` dictionary of the resolver
as an association list.

Character-level primitives (`pyLower`, `pyIsAlnum`, `pyIsSpace`, `nfkdChar`,
`nfdChar`) model the CPython string/`unicodedata` behaviour on the code-point
range exercised in this development: the ASCII range (on which they agree
exactly with CPython), the four curly-quote code points handled by
`clean_text`, and U+00B2 (SUPERSCRIPT TWO), whose NFKD decomposition is the
ASCII digit `2` while its NFD decomposition is itself.
-/

set_option autoImplicit false

namespace Nervyra

/-- Python strings are modelled as lists of characters. -/
abbrev Str := List Char

/-- ASCII uppercase → lowercase table; `str.lower` acts as the identity on
every other code point exercised here. -/
def lowerTable : List (Char × Char) :=
  [('A', 'a'), ('B', 'b'), ('C', 'c'), ('D', 'd'), ('E', 'e'), ('F', 'f'),
   ('G', 'g'), ('H', 'h'), ('I', 'i'), ('J', 'j'), ('K', 'k'), ('L', 'l'),
   ('M', 'm'), ('N', 'n'), ('O', 'o'), ('P', 'p'), ('Q', 'q'), ('R', 'r'),
   ('S', 's'), ('T', 't'), ('U', 'u'), ('V', 'v'), ('W', 'w'), ('X', 'x'),
   ('Y', 'y'), ('Z', 'z')]

/-- Model of Python `str.lower` at character level. -/
def pyLower (c : Char) : Char :=
  match lowerTable.lookup c with
  | some d => d
  | none => c

/-- Lowercase a whole string (`str.lower`). -/
def lowerStr (s : Str) : Str := s.map pyLower

/-- Code points outside ASCII that CPython `str.isalnum` accepts and that occur
in this development (U+00B2 SUPERSCRIPT TWO is a Unicode digit). -/
def extraAlnum : List Char := [Char.ofNat 0xB2]

/-- Model of Python `str.isalnum` at character level. -/
def pyIsAlnum (c : Char) : Bool := c.isAlphanum || extraAlnum.contains c

/-- The whitespace characters recognised by Python `str.isspace` / `str.split`
in the ASCII range. -/
def wsChars : List Char :=
  [' ', Char.ofNat 9, Char.ofNat 10, Char.ofNat 13, Char.ofNat 11, Char.ofNat 12]

/-- Model of Python `str.isspace` at character level. -/
def pyIsSpace (c : Char) : Bool := wsChars.contains c

/-- Unicode NFKD (compatibility decomposition) at character level: the identity
on ASCII and on the curly quotes, and `²` (U+00B2) decomposes to `2`. -/
def nfkdChar (c : Char) : List Char :=
  if c = Char.ofNat 0xB2 then [Char.ofNat 50] else [c]

/-- Unicode NFD (canonical decomposition) at character level: the identity on
every code point exercised here (`²` has only a compatibility decomposition). -/
def nfdChar (c : Char) : List Char := [c]

/-- The four curly-quote code points replaced by `clean_text` before
normalization, paired with their straight replacements. -/
def fixQuotes (c : Char) : Char :=
  if c = Char.ofNat 0x2019 then Char.ofNat 39
  else if c = Char.ofNat 0x2018 then Char.ofNat 39
  else if c = Char.ofNat 0x201C then Char.ofNat 34
  else if c = Char.ofNat 0x201D then Char.ofNat 34
  else c

/-- `clean_text` from `clause_engine.py`: replace curly quotes, NFKD-normalize,
lowercase, then keep alphanumeric/whitespace characters and replace every
other character with a space. -/
def clean_text (text : Str) : Str :=
  let t := (text.map fixQuotes).flatMap nfkdChar
  (t.map pyLower).map (fun c => if pyIsAlnum c || pyIsSpace c then c else ' ')

/-- Python `str.split()` with no separator: split on runs of whitespace,
discarding empty words. -/
def splitWs (s : Str) : List Str :=
  match s with
  | [] => []
  | c :: rest =>
    if pyIsSpace c then splitWs rest
    else
      match splitWs rest with
      | [] => [[c]]
      | w :: ws =>
        match rest with
        | [] => [[c]]
        | d :: _ => if pyIsSpace d then [c] :: w :: ws else (c :: w) :: ws

/-- `" ".join`: interleave single spaces between the given words. -/
def joinWords : List Str → Str
  | [] => []
  | [w] => w
  | w :: ws => w ++ ' ' :: joinWords ws

/-- Python `str.isdigit` on a whole token (nonempty and all ASCII digits in
this development). -/
def strIsDigit (w : Str) : Bool := !w.isEmpty && w.all (·.isDigit)

/-- Python `t[:-n]`: drop the last `n` characters. -/
def dropRight (t : Str) (n : Nat) : Str := t.take (t.length - n)

/-- `singularize` from `clause_engine.py`: light suffix-based plural→singular
reduction (the input is lowercased first, as in the source). -/
def singularize (tok : Str) : Str :=
  let t := lowerStr tok
  if t.length ≤ 3 then t
  else if ("ies".data).isSuffixOf t ∧ t.length > 4 then dropRight t 3 ++ ['y']
  else if ("sses".data).isSuffixOf t ∨ ("xes".data).isSuffixOf t ∨
          ("zes".data).isSuffixOf t ∨ ("ches".data).isSuffixOf t ∨
          ("shes".data).isSuffixOf t then dropRight t 2
  else if ("es".data).isSuffixOf t ∧ ¬ ("aes".data).isSuffixOf t ∧
          ¬ ("ees".data).isSuffixOf t ∧ ¬ ("oes".data).isSuffixOf t ∧
          t.length > 4 then dropRight t 2
  else if ("s".data).isSuffixOf t ∧ ¬ ("ss".data).isSuffixOf t then dropRight t 1
  else t

/-- `COMMON_STOPWORDS` from `clause_engine.py`. -/
def COMMON_STOPWORDS : List Str :=
  ["and", "or", "of", "the", "clause", "limit", "value", "in", "property",
   "policy", "insured", "insurance", "company", "be", "is", "are", "to",
   "for", "on", "by", "with", "at", "an", "a", "as", "it", "this", "that",
   "shall", "may", "each", "day", "days", "notice", "within", "period",
   "time", "any", "event", "request", "portion", "been", "force", "subject",
   "also", "terms", "agreement", "applicable", "provided", "always", "no",
   "refund", "allowed", "upon", "per", "up", "such", "but", "not", "from",
   "last", "known", "address", "letter", "registered", "adjusted", "pro",
   "rata", "short", "long", "term", "if", "has", "under", "cost", "costs",
   "loss"].map String.data

/-- The token list built by `token_set` before set conversion: split the
cleaned text, drop digit-only and length-≤2 tokens, singularize, and drop
stopwords. -/
def tokenList (s : Str) (stopwords : List Str) : List Str :=
  (splitWs (clean_text s)).filterMap (fun w =>
    if strIsDigit w then none
    else if w.length ≤ 2 then none
    else
      let w' := singularize w
      if w' ∈ stopwords then none else some w')

/-- `token_set` from `clause_engine.py` (Python returns a `set`). -/
def token_set (s : Str) (stopwords : List Str) : Finset Str :=
  (tokenList s stopwords).toFinset

/-! ## Protected-phrase detectors (`LM7_PATTERN`, `PAYMENT_WARRANTY_PATTERN`,
`TEMPORARY_PATTERN`)

The three regexes are case-insensitive searches; we search the lowercased
text.  Each pattern is deterministic (no backtracking is ever needed because
the character classes of adjacent pattern pieces are disjoint), so it is
modelled by a straight-line matcher tried at every start position. -/

/-- Python regex word character (`\w`) on the range exercised here. -/
def wordChar (c : Char) : Bool := pyIsAlnum c || c = '_'

/-- `\b` seen from the left: the previous character (if any) is a non-word
character. -/
def boundaryBefore : Option Char → Bool
  | none => true
  | some p => !wordChar p

/-- `\b` after a word character: the next character (if any) is a non-word
character. -/
def boundaryNext : Str → Bool
  | [] => true
  | d :: _ => !wordChar d

/-- After `lm` has been read: `[\s\-]*7\b`. -/
def lm7Tail : Str → Bool
  | [] => false
  | c :: rest =>
    if c = '7' then boundaryNext rest
    else if pyIsSpace c || c = '-' then lm7Tail rest
    else false

/-- `\blm[\s\-]*7\b` anchored at the current position of the lowercased text. -/
def lm7At (prev : Option Char) (txt : Str) : Bool :=
  boundaryBefore prev &&
    (match txt with
     | 'l' :: 'm' :: rest => lm7Tail rest
     | _ => false)

/-- Regex search: try the anchored matcher at every start position. -/
def scanHit (p : Option Char → Str → Bool) : Option Char → Str → Bool
  | prev, [] => p prev []
  | prev, c :: rest => p prev (c :: rest) || scanHit p (some c) rest

/-- `is_lm7_line` from `clause_engine.py`. -/
def is_lm7_line (s : Str) : Bool := scanHit lm7At none (lowerStr s)

/-- After `payment` has been read: optional whitespace, an optional hyphen or
slash, optional whitespace, then `warranty\b`. -/
def pwTail (t : Str) : Bool :=
  let t1 := t.dropWhile pyIsSpace
  let t2 :=
    match t1 with
    | c :: rest => if c = '-' ∨ c = '/' then rest.dropWhile pyIsSpace else t1
    | [] => t1
  ("warranty".data).isPrefixOf t2 && boundaryNext (t2.drop 8)

/-- The `PAYMENT_WARRANTY_PATTERN` regex anchored at the current position of
the lowercased text. -/
def pwAt (prev : Option Char) (txt : Str) : Bool :=
  boundaryBefore prev && ("payment".data).isPrefixOf txt && pwTail (txt.drop 7)

/-- `is_payment_warranty_line` from `clause_engine.py`. -/
def is_payment_warranty_line (s : Str) : Bool := scanHit pwAt none (lowerStr s)

/-- `\btemporary\b` anchored at the current position. -/
def tempAt (prev : Option Char) (txt : Str) : Bool :=
  boundaryBefore prev && ("temporary".data).isPrefixOf txt && boundaryNext (txt.drop 9)

/-- `is_temporary_line` from `clause_engine.py`. -/
def is_temporary_line (s : Str) : Bool := scanHit tempAt none (lowerStr s)

/-! ## Clause records, scorer, resolver -/

/-- A clause-library record: `Name of Clause`, `Keywords`, `Limit` (the
`Description` field is never read by the engine).  Absent `Limit` is the
empty string, matching the `get(..., "")` accesses in the source. -/
structure Clause where
  name : Str
  keywords : List Str
  limit : Str
deriving DecidableEq

/-- The name-token set of a clause (`token_set(clause.get("Name of Clause",""))`). -/
def nameTokens (stopwords : List Str) (c : Clause) : Finset Str :=
  token_set c.name stopwords

/-- The full token pool of a clause inside `match_clause_with_score`:
name tokens united with the tokens of the space-joined keyword list. -/
def poolTokens (stopwords : List Str) (c : Clause) : Finset Str :=
  nameTokens stopwords c ∪ token_set (joinWords c.keywords) stopwords

/-- The weighted score of one clause against a line's token set:
`10 * overlap_with(name+keywords) + 5 * overlap_with(name_only)`. -/
def scoreClause (uw : Finset Str) (stopwords : List Str) (c : Clause) : Nat :=
  10 * (uw ∩ poolTokens stopwords c).card + 5 * (uw ∩ nameTokens stopwords c).card

/-- The best-candidate fold of `match_clause_with_score`: a new candidate
replaces the current best on a strictly greater score, or on an equal score
with a strictly shorter clause name when a best already exists. -/
def pickBest (uw : Finset Str) (stopwords : List Str) :
    Option Clause × Nat → List Clause → Option Clause × Nat
  | acc, [] => acc
  | acc, c :: rest =>
    let sc := scoreClause uw stopwords c
    let repl : Bool :=
      decide (acc.2 < sc) ||
        (decide (sc = acc.2) &&
          (match acc.1 with
           | some b => decide (c.name.length < b.name.length)
           | none => false))
    pickBest uw stopwords (if repl then (some c, sc) else acc) rest

/-- `match_clause_with_score` from `clause_engine.py`. -/
def match_clause_with_score (user_text : Str) (clauses : List Clause) :
    Option Clause × Nat :=
  if is_lm7_line user_text then (none, 0)
  else if is_temporary_line user_text then (none, 0)
  else if is_payment_warranty_line user_text then (none, 0)
  else
    let uw := token_set user_text COMMON_STOPWORDS
    if uw = ∅ then (none, 0)
    else
      let best := pickBest uw COMMON_STOPWORDS (none, 0) clauses
      if 10 ≤ best.2 then best else (none, 0)

/-- The uniqueness key of `best_unique_matches`: `(Name,)` for the Liability
department, `(Name, Limit)` for every other department. -/
def uniqKey (department : Str) (c : Clause) : List Str :=
  if department = "Liability".data then [c.name] else [c.name, c.limit]

/-- One `best_for_key` dictionary update: insert the key if absent, replace
the stored `(index, score)` pair only on a strictly greater score. -/
def updateBest : List (List Str × Nat × Nat) → List Str → Nat → Nat →
    List (List Str × Nat × Nat)
  | [], k, i, s => [(k, i, s)]
  | (k0, i0, s0) :: rest, k, i, s =>
    if k0 = k then
      (if s0 < s then (k, i, s) :: rest else (k0, i0, s0) :: rest)
    else (k0, i0, s0) :: updateBest rest k i s

/-- Dictionary lookup in the association-list model of `best_for_key`. -/
def lookupB : List (List Str × Nat × Nat) → List Str → Option (Nat × Nat)
  | [], _ => none
  | (k0, i0, s0) :: rest, k => if k0 = k then some (i0, s0) else lookupB rest k

/-- The first loop of `best_unique_matches`: fold the enumerated per-line
results into the `best_for_key` dictionary, skipping unmatched lines. -/
def buildBest (department : Str) :
    List (List Str × Nat × Nat) → List (Nat × (Option Clause × Nat)) →
    List (List Str × Nat × Nat)
  | m, [] => m
  | m, (i, r) :: rest =>
    match r.1 with
    | none => buildBest department m rest
    | some c => buildBest department (updateBest m (uniqKey department c) i r.2) rest

/-- `best_unique_matches` from `clause_engine.py`. -/
def best_unique_matches (user_lines : List Str) (clauses : List Clause)
    (department : Str) : List (Option Clause) :=
  let line_results := user_lines.map (fun ln => match_clause_with_score ln clauses)
  let bfk := buildBest department [] line_results.enum
  line_results.enum.map (fun p =>
    match p.2.1 with
    | none => none
    | some m =>
      match lookupB bfk (uniqKey department m) with
      | some (widx, _) => if p.1 = widx then some m else none
      | none => none)

/-- The `line_results` list of `best_unique_matches`: the scorer applied to
every line independently, in input order. -/
def lineResults (user_lines : List Str) (clauses : List Clause) :
    List (Option Clause × Nat) :=
  user_lines.map (fun ln => match_clause_with_score ln clauses)

/-- One `best_for_key` comparison, isolated per key: keep the stored
`(index, score)` pair unless the new score is strictly greater. -/
def bestStep (acc : Option (Nat × Nat)) (p : Nat × Nat) : Option (Nat × Nat) :=
  match acc with
  | none => some p
  | some q => if q.2 < p.2 then some p else some q

/-- The `(index, score)` pairs of the enumerated per-line results whose
matched clause carries the given uniqueness key, in input order. -/
def relevantEntries (department : Str) (k : List Str)
    (es : List (Nat × (Option Clause × Nat))) : List (Nat × Nat) :=
  es.filterMap (fun p =>
    match p.2.1 with
    | none => none
    | some c => if uniqKey department c = k then some (p.1, p.2.2) else none)

/-- The fully-folded `best_for_key` dictionary of one resolver run. -/
def bestForKey (user_lines : List Str) (clauses : List Clause)
    (department : Str) : List (List Str × Nat × Nat) :=
  buildBest department [] (lineResults user_lines clauses).enum

/-! ## Highlighter (`highlight_autocompleted`, `clause_engine.py`) -/

/-- Straight single quote (written by code point to keep literals plain). -/
def sq : Char := Char.ofNat 39

/-- Straight double quote. -/
def dq : Char := Char.ofNat 34

/-- `CUSTOM_BLUE` from `config.py`. -/
def CUSTOM_BLUE : Str := "#6EADFF".data

/-- The characters stripped by `word.strip(".,;:!?")`. -/
def punctChars : List Char := ['.', ',', ';', ':', '!', '?']

/-- Membership in the stripped punctuation set. -/
def isPunct (c : Char) : Bool := punctChars.contains c

/-- Remove the maximal run of strip-punctuation from the end of a word. -/
def dropTrailingP : Str → Str
  | [] => []
  | c :: rest =>
    match dropTrailingP rest with
    | [] => if isPunct c then [] else [c]
    | r => c :: r

/-- Python `word.strip(".,;:!?")`: remove strip-punctuation from both ends. -/
def stripBoth (w : Str) : Str := dropTrailingP (w.dropWhile isPunct)

/-- `normalize_user_text` from `clause_engine.py` (an alias of `clean_text`). -/
def normalize_user_text (text : Str) : Str := clean_text text

/-- The `user_words_norm` set of `highlight_autocompleted`: normalize the
line, split, strip punctuation, lowercase, singularize, collect as a set. -/
def refSet (user_text : Str) : Finset Str :=
  ((splitWs (normalize_user_text user_text)).map
    (fun t => singularize (lowerStr (stripBoth t)))).toFinset

/-- The highlight span wrapper
`<span style='color:#6EADFF;'>word</span>`. -/
def spanWrap (w : Str) : Str :=
  "<span style=".data ++ [sq] ++ "color:".data ++ CUSTOM_BLUE ++ [';'] ++ [sq] ++
    ">".data ++ w ++ "</span>".data

/-- `highlight_autocompleted` from `clause_engine.py`. -/
def highlight_autocompleted (user_text matched_text : Str) : Str :=
  let uwn := refSet user_text
  joinWords ((splitWs matched_text).map (fun word =>
    if singularize (lowerStr (stripBoth word)) ∈ uwn then word
    else spanWrap word))

/-! ## Rich-text serializer (`clipboard_utils.py`) -/

/-- Backslash. -/
def bsC : Char := Char.ofNat 92

/-- Opening brace. -/
def lbC : Char := Char.ofNat 123

/-- Closing brace. -/
def rbC : Char := Char.ofNat 125

/-- `_rtf_escape`: escape the three RTF control characters in a text run. -/
def rtf_escape (s : Str) : Str :=
  s.flatMap (fun c =>
    if c = bsC then [bsC, bsC]
    else if c = lbC then [bsC, lbC]
    else if c = rbC then [bsC, rbC]
    else [c])

/-- Python `str.replace(firstC :: needleTail, [repl])`: left-to-right,
non-overlapping single-character replacement of a fixed needle.  The
recursion is structural on a fuel argument; every step consumes at least one
character, so fuel equal to the input length (supplied by the wrappers below)
is never exhausted and the zero-fuel branch is unreachable. -/
def replaceTok (needleTail : Str) (firstC : Char) (repl : Char) :
    Nat → Str → Str
  | _, [] => []
  | 0, s => s
  | fuel + 1, c :: rest =>
    if c = firstC ∧ needleTail.isPrefixOf rest then
      repl :: replaceTok needleTail firstC repl fuel (rest.drop needleTail.length)
    else c :: replaceTok needleTail firstC repl fuel rest

/-- `txt.replace("&nbsp;", " ")`. -/
def replaceNbsp (s : Str) : Str := replaceTok ("nbsp;".data) '&' ' ' s.length s

/-- `style.replace("&quot;", chr(34))`. -/
def replaceQuot (s : Str) : Str := replaceTok ("quot;".data) '&' dq s.length s

/-- ASCII lowercase → uppercase table for `str.upper`. -/
def upperTable : List (Char × Char) := lowerTable.map (fun p => (p.2, p.1))

/-- Model of Python `str.upper` at character level. -/
def pyUpper (c : Char) : Char :=
  match upperTable.lookup c with
  | some d => d
  | none => c

/-- Uppercase a whole string. -/
def upperStr (s : Str) : Str := s.map pyUpper

/-- Python substring containment (`needle in hay`). -/
def containsSub (n : Str) : Str → Bool
  | [] => n.isEmpty
  | c :: rest => n.isPrefixOf (c :: rest) || containsSub n rest

/-- Match `<br\s*/?>`-style line breaks (case-insensitive) at the head of the
text; on success return the remaining text. -/
def brMatch (t : Str) : Option Str :=
  match t with
  | '<' :: c1 :: c2 :: rest =>
    if pyLower c1 = 'b' ∧ pyLower c2 = 'r' then
      match rest.dropWhile pyIsSpace with
      | '/' :: '>' :: r2 => some r2
      | '>' :: r2 => some r2
      | _ => none
    else none
  | _ => none

/-- `re.sub(r"(?i)<br\s*/?>", chr(10), txt)`: left-to-right replacement of
line-break tags by a newline character (fuel-structural recursion; a matched
tag consumes at least four characters, an unmatched position one, so fuel
equal to the input length is never exhausted). -/
def replaceBrF : Nat → Str → Str
  | _, [] => []
  | 0, s => s
  | fuel + 1, c :: rest =>
    match brMatch (c :: rest) with
    | some r => Char.ofNat 10 :: replaceBrF fuel r
    | none => c :: replaceBrF fuel rest

/-- The line-break replacement at its natural fuel. -/
def replaceBr (s : Str) : Str := replaceBrF s.length s

/-- The open-span state pushed on the scanner stack: which controls the span
emitted when it was opened. -/
structure SpanFlags where
  blue : Bool
  strike : Bool
deriving DecidableEq

/-- Scan for the first `>` in the text: return the characters before it and
the text after it. -/
def takeToGt : Str → Option (Str × Str)
  | [] => none
  | c :: rest =>
    if c = '>' then some ([], rest)
    else
      match takeToGt rest with
      | some (ins, aft) => some (c :: ins, aft)
      | none => none

/-- A tag starting at a `<`: the regex alternation
`(?is)<(/?)span\b([^>]*)>|<[^>]+>` matches exactly when the `<` is followed by
at least one non-`>` character and then a `>`. -/
def findTagEnd (t : Str) : Option (Str × Str) :=
  match takeToGt t with
  | some (ins, aft) => if ins = [] then none else some (ins, aft)
  | none => none

/-- The `style` attribute text captured by the span branch of the tag regex:
nonempty only when the tag starts with `<span` (or `</span`) followed by a
word boundary; other tags captured by the generic branch yield `""`. -/
def spanAttrs (inside : Str) : Str :=
  match inside.drop 4 with
  | [] => []
  | d :: rest => if wordChar d then [] else d :: rest

/-- Processing of one recognised tag: returns the emitted control text and
the new span stack (the body of the `finditer` loop in
`_html_fragment_to_rtf`). -/
def tagStep (stack : List SpanFlags) (inside : Str) : Str × List SpanFlags :=
  let lowIn := lowerStr inside
  if ("/span".data).isPrefixOf lowIn then
    match stack with
    | [] => ([], [])
    | top :: restSt =>
      ((if top.strike then "\\strike0 ".data else []) ++
        (if top.blue then "\\cf0 ".data else []), restSt)
  else if ("span".data).isPrefixOf lowIn then
    let style := replaceQuot (spanAttrs inside)
    let blue := containsSub ("#6EADFF".data) (upperStr style) ||
      containsSub ("110,173,255".data) (upperStr style)
    let strike := containsSub ("line-through".data) (lowerStr style)
    ((if blue then "\\cf1 ".data else []) ++
      (if strike then "\\strike ".data else []),
     ⟨blue, strike⟩ :: stack)
  else ([], stack)

/-- The end-of-fragment loop: force-close every span still open, emitting the
reset controls for the flags it set. -/
def closeAll : List SpanFlags → Str
  | [] => []
  | f :: rest =>
    (if f.strike then "\\strike0 ".data else []) ++
      (if f.blue then "\\cf0 ".data else []) ++ closeAll rest

/-- The scanner loop of `_html_fragment_to_rtf`: `pending` is the plain-text
chunk accumulated since the last tag, `stack` the open-span stack.  The
recursion is structural on a fuel argument; a recognised tag consumes at
least three characters and a plain character one, so fuel equal to the text
length is never exhausted. -/
def scanAux : Nat → Str → List SpanFlags → Str → Str
  | _, pending, stack, [] => rtf_escape pending ++ closeAll stack
  | 0, pending, stack, _ => rtf_escape pending ++ closeAll stack
  | fuel + 1, pending, stack, c :: rest =>
    if c = '<' then
      match findTagEnd rest with
      | some (ins, aft) =>
        rtf_escape pending ++ (tagStep stack ins).1 ++
          scanAux fuel [] (tagStep stack ins).2 aft
      | none => scanAux fuel (pending ++ [c]) stack rest
    else scanAux fuel (pending ++ [c]) stack rest

/-- `_html_fragment_to_rtf` from `clipboard_utils.py`. -/
def html_fragment_to_rtf (fragment : Str) : Str :=
  let txt := replaceBr (replaceNbsp fragment)
  scanAux txt.length [] [] txt

/-- One entry of the `items_sorted` argument of `build_rtf_bullets_from_items`
(only the `html` field is read). -/
structure Item where
  html : Str

/-- The fixed RTF preamble emitted before the bulleted paragraphs. -/
def rtfPreamble : Str :=
  [lbC] ++ "\\rtf1\\ansi\\ansicpg1252\\uc1\\deff0".data ++
  [lbC] ++ "\\fonttbl".data ++ [lbC] ++ "\\f0 Calibri;".data ++ [rbC, rbC] ++
  [lbC] ++ "\\colortbl ;\\red110\\green173\\blue255;".data ++ [rbC] ++
  "\\viewkind4\\pard\\plain\\ltrpar\\sa0\\sl0\\f0\\fs22".data

/-- `bytes.encode("latin-1", errors="ignore")`: one byte per character, code
points ≥ 256 silently dropped. -/
def encodeLatin1 (s : Str) : List Nat :=
  s.filterMap (fun c => if c.toNat < 256 then some c.toNat else none)

/-- `build_rtf_bullets_from_items` from `clipboard_utils.py`. -/
def build_rtf_bullets_from_items (items_sorted : List Item) : List Nat :=
  encodeLatin1 (rtfPreamble ++
    items_sorted.flatMap (fun c =>
      "\\par ".data ++ "\\bullet\\tab ".data ++ html_fragment_to_rtf c.html ++
        "\\cf0\\strike0 ".data) ++
    [rbC])

/-! ## Spec-side definitions

These definitions follow the wording of the specification (not the code) and
exist only to be compared with the code-derived definitions above. -/

/-- Spec §4.1 step 1: replace curly quotes with straight equivalents. -/
def replaceCurlyQuotes (text : Str) : Str := text.map fixQuotes

/-- Unicode compatibility decomposition (NFKD) on a whole string. -/
def nfkdStr (text : Str) : Str := text.flatMap nfkdChar

/-- Unicode canonical decomposition (NFD) on a whole string. -/
def nfdStr (text : Str) : Str := text.flatMap nfdChar

/-- Spec §4.1 step 3: lowercase. -/
def lowercaseAll (text : Str) : Str := text.map pyLower

/-- Spec §4.1 step 4: replace every character that is not alphanumeric or
whitespace with a space. -/
def spacifyNonAlnum (text : Str) : Str :=
  text.map (fun c => if pyIsAlnum c || pyIsSpace c then c else ' ')

/-- The `clean` pipeline exactly as the spec words it, reading "Unicode
canonical-decomposition normalization" literally (canonical decomposition =
NFD). -/
def cleanSpecCanonical (text : Str) : Str :=
  spacifyNonAlnum (lowercaseAll (nfdStr (replaceCurlyQuotes text)))

/-- The spec's `clean` pipeline with the decomposition the code actually
performs (NFKD, compatibility decomposition). -/
def cleanSpecCompat (text : Str) : Str :=
  spacifyNonAlnum (lowercaseAll (nfkdStr (replaceCurlyQuotes text)))

/-- The best weighted overlap score of a line over a whole library, as the
spec's §4.2 formula describes it. -/
def bestOverlapScore (line : Str) (clauses : List Clause) : Nat :=
  (clauses.map (scoreClause (token_set line COMMON_STOPWORDS) COMMON_STOPWORDS)).foldl
    max 0

/-! ## Concrete inputs used by witnesses and counterexamples -/

/-- A clause whose name and keywords overlap war-related lines. -/
def warClause : Clause :=
  ⟨"War Exclusion".data, ["war".data, "hostilities".data], []⟩

/-- A clause whose only relation to the lines below is one keyword. -/
def riskClause : Clause := ⟨"zzzz".data, ["risk".data], []⟩

/-- A protected line (LM7 wording) that overlaps `warClause`. -/
def lm7Line : Str := "Includes LM7 war wording".data

/-- A protected line (temporary wording) overlapping `riskClause`'s keyword. -/
def tempRiskLine : Str := "temporary risk".data

/-- An unprotected line overlapping `warClause` with score 15. -/
def warLine : Str := "war damage".data

/-- An unprotected line overlapping `warClause` only through one keyword
(score 10). -/
def hostiLine : Str := "hostilities persist".data

/-- A whitespace-only line (space, tab, space). -/
def wsLine : Str := [' ', Char.ofNat 9, ' ']

/-- The superscript-two character: NFKD-decomposes to `2`, NFD-fixed. -/
def sup2 : Str := [Char.ofNat 0xB2]

/-- The rich-text fragment of the spec's round-trip property. -/
def fooBarFrag : Str :=
  "<span style=".data ++ [sq] ++ "color:#6EADFF;".data ++ [sq] ++
    ">Foo</span> Bar".data

/-- A tag-free fragment containing all three reserved control characters. -/
def plainFrag : Str := "a &nbsp; b ".data ++ [lbC, rbC, ' ', bsC] ++ " c".data

/-- A plain-text run is well escaped when every backslash introduces an escape
pair and no brace occurs bare. -/
def wellEscaped : Str → Bool
  | [] => true
  | c :: rest =>
    if c = bsC then
      match rest with
      | [] => false
      | d :: rest' => (d = bsC ∨ d = lbC ∨ d = rbC) && wellEscaped rest'
    else if c = lbC ∨ c = rbC then false
    else wellEscaped rest

/-- The colored flag an open span tag sets (from its captured style text). -/
def openBlue (inside : Str) : Bool :=
  containsSub ("#6EADFF".data) (upperStr (replaceQuot (spanAttrs inside))) ||
    containsSub ("110,173,255".data) (upperStr (replaceQuot (spanAttrs inside)))

/-- The struck flag an open span tag sets. -/
def openStrike (inside : Str) : Bool :=
  containsSub ("line-through".data) (lowerStr (replaceQuot (spanAttrs inside)))

/-! # Theorems -/

/-- C1: every input line whose text matches one of the three protected-phrase
patterns (any spelling variant of `LM7` as a whole word with optional
space/hyphen, `payment warranty` with an optional hyphen or slash between the
words, or the standalone word `temporary`, all case-insensitive) is scored
`(no match, 0)` by `match_clause_with_score`, for every clause library —
including libraries containing clauses whose tokens overlap the line. -/
theorem c1_protected_phrase_veto (line : Str) (clauses : List Clause)
    (h : is_lm7_line line = true ∨ is_temporary_line line = true ∨
      is_payment_warranty_line line = true) :
    match_clause_with_score line clauses = (none, 0) := by
  rcases h with h | h | h <;> simp [match_clause_with_score, h]

/-- C1 witness: a concrete protected line against a library whose clause
overlaps it with score ≥ 10 when the veto is removed. -/
theorem c1_witness :
    is_lm7_line lm7Line = true ∧
      match_clause_with_score lm7Line [warClause] = (none, 0) :=
  ⟨by decide, c1_protected_phrase_veto lm7Line [warClause] (Or.inl (by decide))⟩

/-- C4: the resolver's output list has exactly the length of the input list
(the library is never mutated: in this pure embedding `best_unique_matches`
is a function of its three arguments and of nothing else). -/
theorem c4_resolver_length (user_lines : List Str) (clauses : List Clause)
    (department : Str) :
    (best_unique_matches user_lines clauses department).length =
      user_lines.length := by
  simp [best_unique_matches]

/-- C9 counterexample: on the superscript-two character the code's `clean_text`
(which applies NFKD, a compatibility decomposition) differs from the spec's
pipeline read literally with canonical decomposition (NFD): the code yields
the ASCII digit `2`, the literal spec pipeline keeps `²`. -/
theorem c9_counterexample :
    clean_text sup2 ≠ cleanSpecCanonical sup2 ∧
      clean_text sup2 = ['2'] ∧ cleanSpecCanonical sup2 = sup2 := by decide

/-- C9 (amended): `clean_text` is total and deterministic and equals, on every
input string, the spec pipeline with the decomposition step read as NFKD
(compatibility decomposition): replace curly quotes, NFKD-normalize,
lowercase, and replace every character that is neither alphanumeric nor
whitespace with a space. -/
theorem c9_clean_is_spec_pipeline (text : Str) :
    clean_text text = cleanSpecCompat text := rfl

/-- The scorer returns `(none, 0)` against the empty library. -/
theorem match_clause_nil (line : Str) :
    match_clause_with_score line [] = (none, 0) := by
  simp [match_clause_with_score, pickBest]

/-- Whitespace characters are fixed points of every `clean_text` pass and are
kept by its keep-or-space step. -/
theorem ws_char_props :
    ∀ c ∈ wsChars, fixQuotes c = c ∧ nfkdChar c = [c] ∧ pyLower c = c ∧
      (pyIsAlnum c || pyIsSpace c) = true := by decide

/-- `pyIsSpace` as list membership. -/
theorem pyIsSpace_iff_mem {c : Char} : pyIsSpace c = true ↔ c ∈ wsChars := by
  simp [pyIsSpace, List.elem_iff]

/-- `clean_text` is the identity on all-whitespace strings. -/
theorem clean_text_all_space {s : Str} (h : ∀ c ∈ s, pyIsSpace c = true) :
    clean_text s = s := by
  induction s with
  | nil => rfl
  | cons c rest ih =>
    have hc := ws_char_props c (pyIsSpace_iff_mem.mp (h c (by simp)))
    have hrest : clean_text rest = rest := ih (fun d hd => h d (by simp [hd]))
    have hstep : clean_text (c :: rest) = c :: clean_text rest := by
      simp only [clean_text, List.map_cons, List.flatMap_cons, hc.1, hc.2.1]
      simp [hc.2.2.1, hc.2.2.2]
      intro h1 h2
      have h3 := hc.2.2.2
      simp [h1, h2] at h3
    rw [hstep, hrest]

/-- `splitWs` of an all-whitespace string is empty. -/
theorem splitWs_all_space {s : Str} (h : ∀ c ∈ s, pyIsSpace c = true) :
    splitWs s = [] := by
  induction s with
  | nil => rfl
  | cons c rest ih =>
    have hc : pyIsSpace c = true := h c (by simp)
    simp only [splitWs, hc, if_pos]
    exact ih (fun d hd => h d (by simp [hd]))

/-- The token set of an all-whitespace line is empty. -/
theorem token_set_all_space {s : Str} (h : ∀ c ∈ s, pyIsSpace c = true) :
    token_set s COMMON_STOPWORDS = ∅ := by
  simp [token_set, tokenList, clean_text_all_space h, splitWs_all_space h]

/-- The `best_for_key` fold ignores entries whose line did not match. -/
theorem buildBest_skip (department : Str) (m : List (List Str × Nat × Nat))
    (es : List (Nat × (Option Clause × Nat)))
    (h : ∀ p ∈ es, (p.2).1 = (none : Option Clause)) :
    buildBest department m es = m := by
  induction es generalizing m with
  | nil => rfl
  | cons p rest ih =>
    obtain ⟨i, r⟩ := p
    have hp : r.1 = none := h (i, r) (by simp)
    simp only [buildBest, hp]
    exact ih m (fun q hq => h q (by simp [hq]))

/-- C8: the engine never fails on degenerate input.  An empty clause library
(the representation of an unreadable or malformed library source) makes the
resolver return no match for every line, and an empty or whitespace-only line
is scored `(no match, 0)` by the scorer against any library. -/
theorem c8_degenerate_inputs :
    (∀ (user_lines : List Str) (department : Str),
      best_unique_matches user_lines [] department =
        user_lines.map (fun _ => none)) ∧
    (∀ (line : Str) (clauses : List Clause), line.all pyIsSpace = true →
      match_clause_with_score line clauses = (none, 0)) := by
  constructor
  · intro user_lines department
    have hres : user_lines.map (fun ln => match_clause_with_score ln []) =
        user_lines.map (fun _ => ((none : Option Clause), 0)) :=
      List.map_congr_left (fun ln _ => match_clause_nil ln)
    simp only [best_unique_matches, hres]
    have hmem : ∀ p ∈ (user_lines.map
        (fun _ => ((none : Option Clause), 0))).enum,
        (p.2).1 = (none : Option Clause) := by
      intro p hp
      have h2 := List.snd_mem_of_mem_enum hp
      obtain ⟨a, _, ha⟩ := List.mem_map.mp h2
      rw [← ha]
    trans ((user_lines.map (fun _ => ((none : Option Clause), 0))).enum).map
      (fun _ => (none : Option Clause))
    · exact List.map_congr_left (fun p hp => by simp [hmem p hp])
    · simp [List.map_const']
  · intro line clauses hsp
    have hall : ∀ c ∈ line, pyIsSpace c = true := by
      intro c hc
      exact List.all_eq_true.mp hsp c hc
    have hts := token_set_all_space hall
    simp [match_clause_with_score, hts]

/-- C8 witness: the concrete degenerate inputs. -/
theorem c8_witness :
    best_unique_matches [lm7Line] [] "Liability".data = [none] ∧
      wsLine.all pyIsSpace = true ∧
      match_clause_with_score wsLine [warClause] = (none, 0) :=
  ⟨c8_degenerate_inputs.1 [lm7Line] "Liability".data, by decide,
    c8_degenerate_inputs.2 wsLine [warClause] (by decide)⟩

/-- The score tracked by the candidate fold is the running maximum of the
clause scores (tie-breaking never changes the tracked score). -/
theorem pickBest_snd (uw : Finset Str) (st : List Str) :
    ∀ (cs : List Clause) (acc : Option Clause × Nat),
      (pickBest uw st acc cs).2 = (cs.map (scoreClause uw st)).foldl max acc.2 := by
  intro cs
  induction cs with
  | nil => intro acc; rfl
  | cons c rest ih =>
    intro acc
    simp only [pickBest, List.map_cons, List.foldl_cons]
    rw [ih]
    congr 1
    split
    next hrepl =>
      rcases Bool.or_eq_true_iff.mp hrepl with hlt | hand
      · exact (Nat.max_eq_right (Nat.le_of_lt (of_decide_eq_true hlt))).symm
      · have heq : scoreClause uw st c = acc.2 :=
          of_decide_eq_true (Bool.and_eq_true_iff.mp hand).1
        simp [heq]
    next hrepl =>
      have hnlt : ¬(acc.2 < scoreClause uw st c) := by
        intro hlt
        exact absurd hrepl (by simp [decide_eq_true hlt])
      exact (Nat.max_eq_left (Nat.le_of_not_lt hnlt)).symm

/-- The candidate fold either keeps its accumulator or returns some listed
clause together with that clause's score. -/
theorem pickBest_result (uw : Finset Str) (st : List Str) :
    ∀ (cs : List Clause) (acc : Option Clause × Nat),
      pickBest uw st acc cs = acc ∨
        ∃ c ∈ cs, pickBest uw st acc cs = (some c, scoreClause uw st c) := by
  intro cs
  induction cs with
  | nil => intro acc; exact Or.inl rfl
  | cons c rest ih =>
    intro acc
    simp only [pickBest]
    split
    · rcases ih (some c, scoreClause uw st c) with h | ⟨c', hc', h⟩
      · exact Or.inr ⟨c, by simp, h⟩
      · exact Or.inr ⟨c', by simp [hc'], h⟩
    · rcases ih acc with h | ⟨c', hc', h⟩
      · exact Or.inl h
      · exact Or.inr ⟨c', by simp [hc'], h⟩

/-- A max-fold over a list of zeros starting at zero is zero. -/
theorem foldl_max_zeros :
    ∀ l : List Nat, (∀ x ∈ l, x = 0) → l.foldl max 0 = 0 := by
  intro l
  induction l with
  | nil => intro _; rfl
  | cons x rest ih =>
    intro h
    have hx : x = 0 := h x (by simp)
    simp only [List.foldl_cons, hx, Nat.max_self]
    exact ih (fun y hy => h y (by simp [hy]))

/-- C3 counterexample: the claim as stated quantifies over every input, but a
protected line ("temporary risk") whose best weighted score against the
library is 10 (≥ 10) is still scored `(no match, 0)` by the code. -/
theorem c3_counterexample :
    10 ≤ bestOverlapScore tempRiskLine [riskClause] ∧
      match_clause_with_score tempRiskLine [riskClause] = (none, 0) := by decide

/-- C3 (amended to lines that match no protected-phrase pattern): the scorer
returns the best-scoring clause with its score exactly when the best weighted
score `10*|line ∩ (name ∪ keywords)| + 5*|line ∩ name|` reaches 10, and
`(no match, 0)` otherwise; a line whose only overlap with a clause is one
keyword token absent from the clause name scores exactly 10 and is accepted;
and a line with zero overlap against every clause of the library yields no
match (the last part needs no protectedness assumption). -/
theorem c3_threshold_boundary :
    (∀ (line : Str) (clauses : List Clause),
      is_lm7_line line = false → is_temporary_line line = false →
      is_payment_warranty_line line = false →
      (10 ≤ bestOverlapScore line clauses →
        ∃ c ∈ clauses,
          scoreClause (token_set line COMMON_STOPWORDS) COMMON_STOPWORDS c =
              bestOverlapScore line clauses ∧
            match_clause_with_score line clauses =
              (some c, bestOverlapScore line clauses)) ∧
      (bestOverlapScore line clauses < 10 →
        match_clause_with_score line clauses = (none, 0))) ∧
    (∀ (line : Str) (c : Clause),
      is_lm7_line line = false → is_temporary_line line = false →
      is_payment_warranty_line line = false →
      ((token_set line COMMON_STOPWORDS) ∩ poolTokens COMMON_STOPWORDS c).card = 1 →
      ((token_set line COMMON_STOPWORDS) ∩ nameTokens COMMON_STOPWORDS c).card = 0 →
      scoreClause (token_set line COMMON_STOPWORDS) COMMON_STOPWORDS c = 10 ∧
        match_clause_with_score line [c] = (some c, 10)) ∧
    (∀ (line : Str) (clauses : List Clause),
      (∀ c ∈ clauses,
        ((token_set line COMMON_STOPWORDS) ∩ poolTokens COMMON_STOPWORDS c).card = 0) →
      match_clause_with_score line clauses = (none, 0)) := by
  have score_zero : ∀ (line : Str) (c : Clause),
      ((token_set line COMMON_STOPWORDS) ∩ poolTokens COMMON_STOPWORDS c).card = 0 →
      scoreClause (token_set line COMMON_STOPWORDS) COMMON_STOPWORDS c = 0 := by
    intro line c hc
    have hsub : (token_set line COMMON_STOPWORDS) ∩ nameTokens COMMON_STOPWORDS c ⊆
        (token_set line COMMON_STOPWORDS) ∩ poolTokens COMMON_STOPWORDS c :=
      Finset.inter_subset_inter (le_refl _) Finset.subset_union_left
    have hn : ((token_set line COMMON_STOPWORDS) ∩
        nameTokens COMMON_STOPWORDS c).card = 0 :=
      Nat.eq_zero_of_le_zero (hc ▸ Finset.card_le_card hsub)
    simp [scoreClause, hc, hn]
  refine ⟨?_, ?_, ?_⟩
  · intro line clauses h1 h2 h3
    simp only [match_clause_with_score, h1, h2, h3, Bool.false_eq_true,
      if_false]
    by_cases hu : token_set line COMMON_STOPWORDS = ∅
    · have hz : bestOverlapScore line clauses = 0 := by
        apply foldl_max_zeros
        intro x hx
        obtain ⟨c, _, hcx⟩ := List.mem_map.mp hx
        rw [← hcx, hu]
        simp [scoreClause]
      constructor
      · intro h10; omega
      · intro _; simp [hu]
    · have hsnd := pickBest_snd (token_set line COMMON_STOPWORDS)
        COMMON_STOPWORDS clauses ((none : Option Clause), 0)
      have hbos : (pickBest (token_set line COMMON_STOPWORDS) COMMON_STOPWORDS
          ((none : Option Clause), 0) clauses).2 = bestOverlapScore line clauses := hsnd
      constructor
      · intro h10
        rcases pickBest_result (token_set line COMMON_STOPWORDS)
            COMMON_STOPWORDS clauses ((none : Option Clause), 0) with hkeep | ⟨c, hc, hres⟩
        · rw [hkeep] at hbos
          simp at hbos
          omega
        · rw [hres] at hbos
          have hsc : scoreClause (token_set line COMMON_STOPWORDS)
              COMMON_STOPWORDS c = bestOverlapScore line clauses := by
            simpa using hbos
          refine ⟨c, hc, hsc, ?_⟩
          simp only [hu, if_false, hres, hsc]
          simp [h10, hsc ▸ h10]
      · intro hlt
        simp [hu]
        intro hge
        rw [hbos] at hge
        omega
  · intro line c h1 h2 h3 hpool hname
    have hsc : scoreClause (token_set line COMMON_STOPWORDS) COMMON_STOPWORDS c = 10 := by
      simp [scoreClause, hpool, hname]
    refine ⟨hsc, ?_⟩
    have hu : token_set line COMMON_STOPWORDS ≠ ∅ := by
      intro hu
      rw [hu] at hpool
      simp at hpool
    simp only [match_clause_with_score, h1, h2, h3, Bool.false_eq_true, if_false]
    simp only [pickBest, hsc]
    simp [hu, pickBest]
  · intro line clauses hall
    simp only [match_clause_with_score]
    split
    · rfl
    split
    · rfl
    split
    · rfl
    by_cases hu : token_set line COMMON_STOPWORDS = ∅
    · simp [hu]
    · have hz : (pickBest (token_set line COMMON_STOPWORDS) COMMON_STOPWORDS
          ((none : Option Clause), 0) clauses).2 = 0 := by
        rw [pickBest_snd]
        apply foldl_max_zeros
        intro x hx
        obtain ⟨c, hc, hcx⟩ := List.mem_map.mp hx
        rw [← hcx]
        exact score_zero line c (hall c hc)
      simp [hu, hz]

/-- C3 witness: an unprotected line scoring 15 against a one-clause library is
matched to that clause with score 15. -/
theorem c3_witness :
    match_clause_with_score warLine [warClause] = (some warClause, 15) := by
  obtain ⟨c, hc, _, hm⟩ := (c3_threshold_boundary.1 warLine [warClause]
    (by decide) (by decide) (by decide)).1 (by decide)
  have hcw : c = warClause := by simpa using hc
  have hbos : bestOverlapScore warLine [warClause] = 15 := by decide
  rw [hcw, hbos] at hm
  exact hm

/-- Characters of a `replaceTok` output come from the input or are the
replacement character. -/
theorem replaceTok_mem_of (nt : Str) (fc repl : Char) :
    ∀ (fuel : Nat) (s : Str) (x : Char),
      x ∈ replaceTok nt fc repl fuel s → x ∈ s ∨ x = repl := by
  intro fuel
  induction fuel with
  | zero =>
    intro s x hx
    cases s with
    | nil => simp [replaceTok] at hx
    | cons c rest => exact Or.inl (by simpa [replaceTok] using hx)
  | succ fuel ih =>
    intro s x hx
    cases s with
    | nil => simp [replaceTok] at hx
    | cons c rest =>
      simp only [replaceTok] at hx
      split at hx
      · rcases List.mem_cons.mp hx with h | h
        · exact Or.inr h
        · rcases ih (rest.drop nt.length) x h with h' | h'
          · exact Or.inl (List.mem_cons_of_mem c (List.mem_of_mem_drop h'))
          · exact Or.inr h'
      · rcases List.mem_cons.mp hx with h | h
        · exact Or.inl (by simp [h])
        · rcases ih rest x h with h' | h'
          · exact Or.inl (List.mem_cons_of_mem c h')
          · exact Or.inr h'

/-- No line-break tag can start at a character other than `<`. -/
theorem brMatch_cons_ne {c : Char} (rest : Str) (h : c ≠ '<') :
    brMatch (c :: rest) = none := by
  unfold brMatch
  split
  next heq =>
    injection heq with h1 _
    exact absurd h1 h
  next => rfl

/-- `replaceBrF` is the identity on `<`-free text, for every fuel. -/
theorem replaceBrF_eq_self :
    ∀ (fuel : Nat) (s : Str), ('<' : Char) ∉ s → replaceBrF fuel s = s := by
  intro fuel
  induction fuel with
  | zero =>
    intro s _
    cases s with
    | nil => rfl
    | cons c rest => rfl
  | succ fuel ih =>
    intro s hlt
    cases s with
    | nil => rfl
    | cons c rest =>
      have hc : c ≠ '<' := fun hc => hlt (by simp [hc])
      have hrest : ('<' : Char) ∉ rest := fun hm => hlt (by simp [hm])
      simp only [replaceBrF, brMatch_cons_ne rest hc]
      rw [ih rest hrest]

/-- The scanner copies (escaped) `<`-free text verbatim under an empty stack,
given enough fuel. -/
theorem scanAux_no_tag :
    ∀ (fuel : Nat) (s : Str), s.length ≤ fuel → ('<' : Char) ∉ s →
      ∀ pending : Str, scanAux fuel pending [] s = rtf_escape (pending ++ s) := by
  intro fuel
  induction fuel with
  | zero =>
    intro s hs _ pending
    have hnil : s = [] := List.eq_nil_of_length_eq_zero (Nat.le_zero.mp hs)
    subst hnil
    simp [scanAux, closeAll]
  | succ fuel ih =>
    intro s hs hlt pending
    cases s with
    | nil => simp [scanAux, closeAll]
    | cons c rest =>
      simp only [List.length_cons, Nat.add_le_add_iff_right] at hs
      have hc : c ≠ '<' := fun hc => hlt (by simp [hc])
      have hrest : ('<' : Char) ∉ rest := fun hm => hlt (by simp [hm])
      simp only [scanAux, hc, if_false]
      rw [ih rest hs hrest (pending ++ [c])]
      simp

/-- A character that is not a reserved control passes through `wellEscaped`. -/
theorem wellEscaped_cons_plain {c : Char} (t : Str) (h1 : c ≠ bsC)
    (h2 : c ≠ lbC) (h3 : c ≠ rbC) : wellEscaped (c :: t) = wellEscaped t := by
  cases t <;> simp [wellEscaped, h1, h2, h3]

/-- `rtf_escape` output is always well escaped. -/
theorem wellEscaped_rtf_escape (s : Str) : wellEscaped (rtf_escape s) = true := by
  induction s with
  | nil => rfl
  | cons c rest ih =>
    have hcons : rtf_escape (c :: rest) =
        (if c = bsC then [bsC, bsC]
         else if c = lbC then [bsC, lbC]
         else if c = rbC then [bsC, rbC]
         else [c]) ++ rtf_escape rest := by
      simp [rtf_escape]
    rw [hcons]
    by_cases h1 : c = bsC
    · simp [wellEscaped, h1, ih]
    · by_cases h2 : c = lbC
      · simp [wellEscaped, h1, h2, ih]
      · by_cases h3 : c = rbC
        · simp [wellEscaped, h1, h2, h3, ih]
        · simp only [h1, h2, h3, if_false, List.singleton_append]
          rw [wellEscaped_cons_plain (rtf_escape rest) h1 h2 h3]
          exact ih

set_option maxRecDepth 8000

/-- C7: the round-trip fragment converts to a color switch immediately before
`Foo`, a color reset before ` Bar`, and the plain text `Foo Bar` once the two
controls are stripped; the full serializer embeds exactly those bytes between
the bullet preamble and the paragraph trailer; tag-free fragments are emitted
as one escaped text run; and escaping protects all three reserved control
characters in every plain-text run. -/
theorem c7_rtf_serializer :
    (html_fragment_to_rtf fooBarFrag =
      "\\cf1 ".data ++ "Foo".data ++ "\\cf0 ".data ++ " Bar".data) ∧
    ("Foo".data ++ " Bar".data = "Foo Bar".data) ∧
    (build_rtf_bullets_from_items [⟨fooBarFrag⟩] =
      encodeLatin1 (rtfPreamble ++ "\\par ".data ++ "\\bullet\\tab ".data ++
        "\\cf1 ".data ++ "Foo".data ++ "\\cf0 ".data ++ " Bar".data ++
        "\\cf0\\strike0 ".data ++ [rbC])) ∧
    (∀ s : Str, ('<' : Char) ∉ s →
      html_fragment_to_rtf s = rtf_escape (replaceNbsp s)) ∧
    (∀ s : Str, wellEscaped (rtf_escape s) = true) := by
  refine ⟨by decide, by decide, by decide, ?_, wellEscaped_rtf_escape⟩
  intro s hs
  have h1 : ('<' : Char) ∉ replaceNbsp s := by
    intro hmem
    rcases replaceTok_mem_of ("nbsp;".data) '&' ' ' s.length s '<' hmem with h | h
    · exact hs h
    · exact absurd h (by decide)
  have h2 : replaceBr (replaceNbsp s) = replaceNbsp s :=
    replaceBrF_eq_self (replaceNbsp s).length _ h1
  simp only [html_fragment_to_rtf, h2]
  rw [scanAux_no_tag (replaceNbsp s).length _ le_rfl h1 []]
  simp

/-- C7 witness: a concrete tag-free fragment holding all three reserved
characters converts to its escaped text run. -/
theorem c7_witness :
    (('<' : Char) ∉ plainFrag) ∧
      html_fragment_to_rtf plainFrag = rtf_escape (replaceNbsp plainFrag) :=
  ⟨by decide, c7_rtf_serializer.2.2.2.1 plainFrag (by decide)⟩

/-- Scanning up to the first `>` after a `>`-free prefix. -/
theorem takeToGt_append (ins rest : Str) (h : ('>' : Char) ∉ ins) :
    takeToGt (ins ++ '>' :: rest) = some (ins, rest) := by
  induction ins with
  | nil => simp [takeToGt]
  | cons c tl ih =>
    have hc : c ≠ '>' := fun hc => h (by simp [hc])
    have htl : ('>' : Char) ∉ tl := fun hm => h (by simp [hm])
    simp [takeToGt, hc, ih htl]

/-- The tag recogniser accepts exactly the `<`…`>` bracketing with a nonempty
`>`-free inside. -/
theorem findTagEnd_append (ins rest : Str) (h1 : ins ≠ [])
    (h2 : ('>' : Char) ∉ ins) :
    findTagEnd (ins ++ '>' :: rest) = some (ins, rest) := by
  simp [findTagEnd, takeToGt_append ins rest h2, h1]

/-- Scanner step on a recognised tag. -/
theorem scanAux_tag (fuel : Nat) (pending : Str) (stack : List SpanFlags)
    (ins rest : Str) (h1 : ins ≠ []) (h2 : ('>' : Char) ∉ ins) :
    scanAux (fuel + 1) pending stack ('<' :: ins ++ '>' :: rest) =
      rtf_escape pending ++ (tagStep stack ins).1 ++
        scanAux fuel [] (tagStep stack ins).2 rest := by
  simp only [scanAux, List.append_eq, findTagEnd_append ins rest h1 h2]
  simp

/-- C10: the scanner tolerates unbalanced markup.  A closing span tag seen
while the open-span stack is empty is skipped without emitting any control; an
opening span tag emits the controls of exactly the flags it pushes; and at
fragment end every span still open is force-closed by emitting the reset
controls for exactly the flags stored when that span was opened. -/
theorem c10_unbalanced_markup :
    (∀ (fuel : Nat) (pending ins rest : Str), ins ≠ [] → ('>' : Char) ∉ ins →
      ("/span".data).isPrefixOf (lowerStr ins) = true →
      scanAux (fuel + 1) pending [] ('<' :: ins ++ '>' :: rest) =
        rtf_escape pending ++ scanAux fuel [] [] rest) ∧
    (∀ (fuel : Nat) (pending : Str) (stack : List SpanFlags) (ins rest : Str),
      ins ≠ [] → ('>' : Char) ∉ ins →
      ("span".data).isPrefixOf (lowerStr ins) = true →
      scanAux (fuel + 1) pending stack ('<' :: ins ++ '>' :: rest) =
        rtf_escape pending ++ (if openBlue ins then "\\cf1 ".data else []) ++
          (if openStrike ins then "\\strike ".data else []) ++
          scanAux fuel [] (⟨openBlue ins, openStrike ins⟩ :: stack) rest) ∧
    (∀ (fuel : Nat) (pending : Str) (stack : List SpanFlags),
      scanAux fuel pending stack [] = rtf_escape pending ++ closeAll stack) ∧
    (∀ (f : SpanFlags) (stack : List SpanFlags),
      closeAll (f :: stack) =
        (if f.strike then "\\strike0 ".data else []) ++
          (if f.blue then "\\cf0 ".data else []) ++ closeAll stack) := by
  refine ⟨?_, ?_, ?_, ?_⟩
  · intro fuel pending ins rest h1 h2 h3
    rw [scanAux_tag fuel pending [] ins rest h1 h2]
    simp [tagStep, h3]
  · intro fuel pending stack ins rest h1 h2 h3
    obtain ⟨t, ht⟩ := List.isPrefixOf_iff_prefix.mp h3
    have hns : ("/span".data).isPrefixOf (lowerStr ins) = false := by
      rw [← ht]
      simp [List.isPrefixOf]
    rw [scanAux_tag fuel pending stack ins rest h1 h2]
    simp only [tagStep, hns, Bool.false_eq_true, if_false, h3, if_true,
      openBlue, openStrike]
    simp [List.append_assoc]
  · intro fuel pending stack
    cases fuel <;> rfl
  · intro f stack
    rfl

/-- C10 witness: a lone closing span tag with empty stack emits nothing. -/
theorem c10_witness :
    scanAux 7 "x".data [] ('<' :: "/span".data ++ '>' :: "y".data) =
      rtf_escape "x".data ++ scanAux 6 [] [] "y".data :=
  c10_unbalanced_markup.1 6 "x".data "/span".data "y".data (by decide)
    (by decide) (by decide)

/-- A successful association-list lookup found a listed pair. -/
theorem lookup_mem :
    ∀ (l : List (Char × Char)) (c d : Char), l.lookup c = some d → (c, d) ∈ l := by
  intro l
  induction l with
  | nil => intro c d h; simp [List.lookup] at h
  | cons p rest ih =>
    intro c d h
    obtain ⟨k, v⟩ := p
    by_cases hk : c = k
    · subst hk
      simp [List.lookup] at h
      simp [h]
    · have hbeq : (c == k) = false := by simp [hk]
      simp only [List.lookup, hbeq] at h
      exact List.mem_cons_of_mem _ (ih c d h)

/-- Every output of `pyLower` is a fixed point of `pyLower`. -/
theorem pyLower_fix {c d : Char} (h : pyLower c = d) : pyLower d = d := by
  unfold pyLower at h ⊢
  cases hl : lowerTable.lookup c with
  | none =>
    rw [hl] at h
    subst h
    rw [hl]
  | some e =>
    rw [hl] at h
    subst h
    have hmem : e ∈ lowerTable.map Prod.snd :=
      List.mem_map_of_mem Prod.snd (lookup_mem lowerTable c e hl)
    have key : ∀ x ∈ lowerTable.map Prod.snd,
        lowerTable.lookup x = none := by decide
    rw [key e hmem]

/-- `pyLower` never produces the superscript-two character from another
character. -/
theorem pyLower_ne_sup2 {c d : Char} (h : pyLower c = d)
    (hc : c ≠ Char.ofNat 0xB2) : d ≠ Char.ofNat 0xB2 := by
  unfold pyLower at h
  cases hl : lowerTable.lookup c with
  | none => rw [hl] at h; subst h; exact hc
  | some e =>
    rw [hl] at h
    subst h
    have hmem : e ∈ lowerTable.map Prod.snd :=
      List.mem_map_of_mem Prod.snd (lookup_mem lowerTable c e hl)
    have key : ∀ x ∈ lowerTable.map Prod.snd, x ≠ Char.ofNat 0xB2 := by decide
    exact key e hmem

/-- Alphanumeric characters are not curly quotes. -/
theorem fixQuotes_of_alnum {c : Char} (h : pyIsAlnum c = true) :
    fixQuotes c = c := by
  unfold fixQuotes
  split_ifs with h1 h2 h3 h4
  · exact absurd (h1 ▸ h) (by decide)
  · exact absurd (h2 ▸ h) (by decide)
  · exact absurd (h3 ▸ h) (by decide)
  · exact absurd (h4 ▸ h) (by decide)
  · rfl

/-- NFKD is the identity away from the superscript-two character. -/
theorem nfkdChar_of_ne {c : Char} (h : c ≠ Char.ofNat 0xB2) :
    nfkdChar c = [c] := by
  simp [nfkdChar, h]

/-- Alphanumeric characters are not whitespace. -/
theorem alnum_not_space {c : Char} (h : pyIsAlnum c = true) :
    pyIsSpace c = false := by
  by_contra hsp
  simp only [Bool.not_eq_false] at hsp
  have hm : c ∈ wsChars := pyIsSpace_iff_mem.mp hsp
  have key : ∀ x ∈ wsChars, pyIsAlnum x = false := by decide
  rw [key c hm] at h
  exact absurd h (by simp)

/-- A character that survives `clean_text` and is not whitespace is
alphanumeric, lowercase-fixed, and not the superscript-two character. -/
theorem clean_text_char {s : Str} {c : Char} (h : c ∈ clean_text s) :
    pyIsSpace c = true ∨
      (pyIsAlnum c = true ∧ pyLower c = c ∧ c ≠ Char.ofNat 0xB2) := by
  simp only [clean_text, List.mem_map] at h
  obtain ⟨d, hd, hdc⟩ := h
  obtain ⟨e, he, hed⟩ := hd
  split at hdc
  next hkeep =>
    subst hdc
    rcases Bool.or_eq_true_iff.mp hkeep with halnum | hspace
    · right
      refine ⟨halnum, pyLower_fix hed, ?_⟩
      have he2 : e ≠ Char.ofNat 0xB2 := by
        obtain ⟨e', _, hee'⟩ := List.mem_flatMap.mp he
        unfold nfkdChar at hee'
        split at hee'
        · have : e = Char.ofNat 50 := by simpa using hee'
          subst this; decide
        next hne =>
          have : e = e' := by simpa using hee'
          subst this; exact hne
      exact pyLower_ne_sup2 hed he2
    · exact Or.inl hspace
  next =>
    subst hdc
    exact Or.inl (by decide)

/-- `clean_text` is the identity on strings all of whose characters are fixed
by every pass and kept by the keep-or-space step. -/
theorem clean_text_fixed {s : Str}
    (h : ∀ c ∈ s, fixQuotes c = c ∧ nfkdChar c = [c] ∧ pyLower c = c ∧
      (pyIsAlnum c || pyIsSpace c) = true) :
    clean_text s = s := by
  induction s with
  | nil => rfl
  | cons c rest ih =>
    have hc := h c (by simp)
    have hrest : clean_text rest = rest := ih (fun d hd => h d (by simp [hd]))
    have hstep : clean_text (c :: rest) = c :: clean_text rest := by
      simp only [clean_text, List.map_cons, List.flatMap_cons, hc.1, hc.2.1]
      simp [hc.2.2.1, hc.2.2.2]
      intro h1 h2
      have h3 := hc.2.2.2
      simp [h1, h2] at h3
    rw [hstep, hrest]

/-- Words produced by `splitWs` are nonempty and consist of non-whitespace
characters of the input. -/
theorem splitWs_sound :
    ∀ (s w : Str), w ∈ splitWs s →
      w ≠ [] ∧ ∀ c ∈ w, c ∈ s ∧ pyIsSpace c = false := by
  intro s
  induction s with
  | nil => intro w hw; simp [splitWs] at hw
  | cons c rest ih =>
    intro w hw
    by_cases hc : pyIsSpace c = true
    · rw [splitWs, if_pos hc] at hw
      obtain ⟨hne, hall⟩ := ih w hw
      exact ⟨hne, fun d hd => ⟨by simp [(hall d hd).1], (hall d hd).2⟩⟩
    · rw [splitWs, if_neg hc] at hw
      have hcf : pyIsSpace c = false := by
        simpa using hc
      cases hsp : splitWs rest with
      | nil =>
        rw [hsp] at hw
        have hwc : w = [c] := by simpa using hw
        subst hwc
        exact ⟨by simp, fun d hd => by
          have : d = c := by simpa using hd
          subst this
          exact ⟨by simp, hcf⟩⟩
      | cons w0 ws =>
        rw [hsp] at hw
        cases rest with
        | nil => simp [splitWs] at hsp
        | cons d rest' =>
          by_cases hd : pyIsSpace d = true
          · have hw2 : w ∈ [c] :: w0 :: ws := by simpa [hd] using hw
            rcases List.mem_cons.mp hw2 with hwc | hwtail
            · subst hwc
              exact ⟨by simp, fun e he => by
                have : e = c := by simpa using he
                subst this
                exact ⟨by simp, hcf⟩⟩
            · obtain ⟨hne, hall⟩ := ih w (hsp ▸ hwtail)
              exact ⟨hne, fun e he => ⟨by simp [(hall e he).1], (hall e he).2⟩⟩
          · have hw2 : w ∈ (c :: w0) :: ws := by simpa [hd] using hw
            rcases List.mem_cons.mp hw2 with hwc | hwtail
            · subst hwc
              refine ⟨by simp, fun e he => ?_⟩
              rcases List.mem_cons.mp he with hec | hew0
              · subst hec
                exact ⟨by simp, hcf⟩
              · have hw0 : w0 ∈ splitWs (d :: rest') := by simp [hsp]
                obtain ⟨_, hall⟩ := ih w0 hw0
                exact ⟨by simp [(hall e hew0).1], (hall e hew0).2⟩
            · have hwm : w ∈ splitWs (d :: rest') := by simp [hsp, hwtail]
              obtain ⟨hne, hall⟩ := ih w hwm
              exact ⟨hne, fun e he => ⟨by simp [(hall e he).1], (hall e he).2⟩⟩

/-- Splitting after prepending one whole word (followed by nothing or by a
whitespace character) prepends that word to the split. -/
theorem splitWs_prepend :
    ∀ (w rest : Str), w ≠ [] → (∀ c ∈ w, pyIsSpace c = false) →
      (rest = [] ∨ ∃ d rest', rest = d :: rest' ∧ pyIsSpace d = true) →
      splitWs (w ++ rest) = w :: splitWs rest := by
  intro w
  induction w with
  | nil => intro rest h _ _; exact absurd rfl h
  | cons c w' ih =>
    intro rest _ hchars hrest
    have hc : pyIsSpace c = false := hchars c (by simp)
    cases w' with
    | nil =>
      simp only [List.singleton_append]
      rw [splitWs]
      rw [if_neg (by simp [hc])]
      rcases hrest with hnil | ⟨d, rest', hcons, hd⟩
      · subst hnil; rfl
      · subst hcons
        cases hsp : splitWs (d :: rest') with
        | nil => rfl
        | cons w0 ws => simp [hd]
    | cons e w'' =>
      have hw' : splitWs ((e :: w'') ++ rest) = (e :: w'') :: splitWs rest :=
        ih rest (by simp) (fun x hx => hchars x (by simp [hx])) hrest
      have he : pyIsSpace e = false := hchars e (by simp)
      simp only [List.cons_append] at hw' ⊢
      rw [splitWs]
      rw [if_neg (by simp [hc])]
      rw [hw']
      simp [he]

/-- Splitting the space-join of a list of nonempty whitespace-free words
recovers exactly that list. -/
theorem splitWs_join :
    ∀ l : List Str, (∀ w ∈ l, w ≠ [] ∧ ∀ c ∈ w, pyIsSpace c = false) →
      splitWs (joinWords l) = l := by
  intro l
  induction l with
  | nil => intro _; rfl
  | cons w ls ih =>
    intro h
    obtain ⟨hne, hchars⟩ := h w (by simp)
    cases ls with
    | nil =>
      show splitWs (joinWords [w]) = [w]
      have : joinWords [w] = w ++ [] := by simp [joinWords]
      rw [this, splitWs_prepend w [] hne hchars (Or.inl rfl)]
      rfl
    | cons w2 ls' =>
      have hjoin : joinWords (w :: w2 :: ls') = w ++ ' ' :: joinWords (w2 :: ls') :=
        rfl
      rw [hjoin, splitWs_prepend w (' ' :: joinWords (w2 :: ls')) hne hchars
        (Or.inr ⟨' ', joinWords (w2 :: ls'), rfl, by decide⟩)]
      rw [show splitWs (' ' :: joinWords (w2 :: ls')) =
        splitWs (joinWords (w2 :: ls')) from by
          rw [splitWs, if_pos (by decide)]]
      rw [ih (fun x hx => h x (by simp [hx]))]

/-- A character of a space-join is a space or a character of some word. -/
theorem joinWords_mem :
    ∀ (l : List Str) (c : Char), c ∈ joinWords l → c = ' ' ∨ ∃ w ∈ l, c ∈ w := by
  intro l
  induction l with
  | nil => intro c hc; simp [joinWords] at hc
  | cons w ls ih =>
    intro c hc
    cases ls with
    | nil =>
      right
      exact ⟨w, by simp, by simpa [joinWords] using hc⟩
    | cons w2 ls' =>
      have : c ∈ w ++ ' ' :: joinWords (w2 :: ls') := hc
      rcases List.mem_append.mp this with hw | htail
      · exact Or.inr ⟨w, by simp, hw⟩
      · rcases List.mem_cons.mp htail with hsp | hrest
        · exact Or.inl hsp
        · rcases ih c hrest with hsp | ⟨v, hv, hcv⟩
          · exact Or.inl hsp
          · exact Or.inr ⟨v, by simp [hv], hcv⟩

/-- Characters of `singularize` come from the lowercased input or are the
letter `y`. -/
theorem singularize_chars :
    ∀ (tok : Str) (c : Char), c ∈ singularize tok →
      c ∈ lowerStr tok ∨ c = 'y' := by
  intro tok c hc
  unfold singularize at hc
  dsimp only at hc
  split_ifs at hc <;>
    first
      | exact Or.inl hc
      | (rcases List.mem_append.mp hc with h | h
         · exact Or.inl (List.mem_of_mem_take h)
         · exact Or.inr (by simpa using h))
      | exact Or.inl (List.mem_of_mem_take hc)

/-- `singularize` preserves the first character (of the lowercased token). -/
theorem singularize_head :
    ∀ tok : Str, (singularize tok).head? = (lowerStr tok).head? := by
  intro tok
  unfold singularize
  dsimp only
  cases hu : lowerStr tok with
  | nil => simp
  | cons a u' =>
    split_ifs with h1 h2 h3 h4 h5
    · rfl
    · obtain ⟨hsuf, hlen⟩ := h2
      simp only [List.length_cons] at hlen
      have hsh : (a :: u').length - 3 = (u'.length - 3) + 1 := by
        simp only [List.length_cons]; omega
      rw [dropRight, hsh, List.take_succ_cons]
      rfl
    · have hlen : ¬(a :: u').length ≤ 3 := h1
      simp only [List.length_cons, not_le] at hlen
      have hsh : (a :: u').length - 2 = (u'.length - 2) + 1 := by
        simp only [List.length_cons]; omega
      rw [dropRight, hsh, List.take_succ_cons]
      rfl
    · obtain ⟨hsuf, _, _, _, hlen⟩ := h4
      simp only [List.length_cons] at hlen
      have hsh : (a :: u').length - 2 = (u'.length - 2) + 1 := by
        simp only [List.length_cons]; omega
      rw [dropRight, hsh, List.take_succ_cons]
      rfl
    · have hlen : ¬(a :: u').length ≤ 3 := h1
      simp only [List.length_cons, not_le] at hlen
      have hsh : (a :: u').length - 1 = (u'.length - 1) + 1 := by
        simp only [List.length_cons]; omega
      rw [dropRight, hsh, List.take_succ_cons]
      rfl
    · rfl

/-- Unpacking membership in the produced token list: the token is no
stopword and arises by singularizing a kept word of the cleaned split. -/
theorem tokenList_elim {s : Str} {S : List Str} {w : Str}
    (h : w ∈ tokenList s S) :
    w ∉ S ∧ ∃ v ∈ splitWs (clean_text s),
      strIsDigit v = false ∧ ¬(v.length ≤ 2) ∧ w = singularize v := by
  simp only [tokenList, List.mem_filterMap] at h
  obtain ⟨v, hv, hf⟩ := h
  split_ifs at hf with h1 h2 h3
  have hw : w = singularize v := by
    injection hf with h'
    exact h'.symm
  refine ⟨by rw [hw]; exact h3, v, hv, ?_, h2, hw⟩
  simpa using h1

/-- Every produced token is nonempty and all its characters are alphanumeric,
lowercase-fixed, NFKD-fixed, quote-free and non-whitespace. -/
theorem token_good {s : Str} {S : List Str} {w : Str}
    (h : w ∈ tokenList s S) :
    w ≠ [] ∧ ∀ c ∈ w,
      pyIsAlnum c = true ∧ pyLower c = c ∧ c ≠ Char.ofNat 0xB2 ∧
        pyIsSpace c = false ∧ fixQuotes c = c ∧ nfkdChar c = [c] := by
  obtain ⟨hnS, v, hv, hdig, hlen, hw⟩ := tokenList_elim h
  obtain ⟨hvne, hvchars⟩ := splitWs_sound (clean_text s) v hv
  have hvgood : ∀ c ∈ v,
      pyIsAlnum c = true ∧ pyLower c = c ∧ c ≠ Char.ofNat 0xB2 := by
    intro c hc
    rcases clean_text_char (hvchars c hc).1 with hsp | hgood
    · rw [(hvchars c hc).2] at hsp
      exact absurd hsp (by simp)
    · exact hgood
  have hlower : lowerStr v = v := by
    have h1 : v.map pyLower = v.map id :=
      List.map_congr_left (fun c hc => (hvgood c hc).2.1)
    simpa [lowerStr] using h1
  subst hw
  constructor
  · have hh := singularize_head v
    rw [hlower] at hh
    cases v with
    | nil => exact absurd rfl hvne
    | cons a v' =>
      intro hnil
      rw [hnil] at hh
      simp at hh
  · intro c hc
    rcases singularize_chars v c hc with hcin | hcy
    · rw [hlower] at hcin
      obtain ⟨ha, hl, hb⟩ := hvgood c hcin
      exact ⟨ha, hl, hb, alnum_not_space ha, fixQuotes_of_alnum ha,
        nfkdChar_of_ne hb⟩
    · subst hcy
      refine ⟨by decide, by decide, by decide, by decide, by decide, by decide⟩

/-- A `filterMap` whose function keeps every listed element unchanged is the
identity. -/
theorem filterMap_id_of (f : Str → Option Str) :
    ∀ l : List Str, (∀ a ∈ l, f a = some a) → l.filterMap f = l := by
  intro l
  induction l with
  | nil => intro _; rfl
  | cons a rest ih =>
    intro h
    rw [List.filterMap_cons, h a (by simp), ih (fun b hb => h b (by simp [hb]))]

/-- C5 counterexample: tokenizing `"axes"` yields the single token `"ax"`
(the `xes` suffix rule shortens it below the 3-character threshold), and
re-tokenizing the joined token set yields the empty set, not the same set. -/
theorem c5_counterexample :
    (["ax".data].toFinset = token_set "axes".data COMMON_STOPWORDS) ∧
      token_set (joinWords ["ax".data]) COMMON_STOPWORDS ≠
        token_set "axes".data COMMON_STOPWORDS := by decide

/-- C5 (amended): tokenization is idempotent on every input whose tokens all
survive re-tokenization — each token of `token_set x` has length ≥ 3, is not
a digit-only string, and is a fixed point of `singularize`.  Then joining the
token set with spaces, in any enumeration order, and re-tokenizing gives the
same token set. -/
theorem c5_tokenize_idempotent :
    ∀ x : Str,
      (∀ t ∈ token_set x COMMON_STOPWORDS,
        3 ≤ t.length ∧ strIsDigit t = false ∧ singularize t = t) →
      ∀ l : List Str, l.toFinset = token_set x COMMON_STOPWORDS →
        token_set (joinWords l) COMMON_STOPWORDS =
          token_set x COMMON_STOPWORDS := by
  intro x hx l hl
  have hmem : ∀ w ∈ l, w ∈ tokenList x COMMON_STOPWORDS := by
    intro w hw
    have h1 : w ∈ l.toFinset := List.mem_toFinset.mpr hw
    rw [hl] at h1
    exact List.mem_toFinset.mp h1
  have hjoin_chars : ∀ c ∈ joinWords l,
      fixQuotes c = c ∧ nfkdChar c = [c] ∧ pyLower c = c ∧
        (pyIsAlnum c || pyIsSpace c) = true := by
    intro c hc
    rcases joinWords_mem l c hc with hsp | ⟨w, hwl, hcw⟩
    · subst hsp
      refine ⟨by decide, by decide, by decide, by decide⟩
    · obtain ⟨_, hgood⟩ := token_good (hmem w hwl)
      obtain ⟨ha, hlow, hb, _, hfq, hnf⟩ := hgood c hcw
      exact ⟨hfq, hnf, hlow, by simp [ha]⟩
  have hclean : clean_text (joinWords l) = joinWords l :=
    clean_text_fixed hjoin_chars
  have hsplit : splitWs (joinWords l) = l := by
    apply splitWs_join
    intro w hw
    obtain ⟨hne, hgood⟩ := token_good (hmem w hw)
    exact ⟨hne, fun c hc => (hgood c hc).2.2.2.1⟩
  have htl : tokenList (joinWords l) COMMON_STOPWORDS = l := by
    rw [tokenList, hclean, hsplit]
    apply filterMap_id_of
    intro w hw
    have hts : w ∈ token_set x COMMON_STOPWORDS := by
      rw [← hl]
      exact List.mem_toFinset.mpr hw
    obtain ⟨hlen3, hdig, hsing⟩ := hx w hts
    obtain ⟨hnS, _⟩ := tokenList_elim (hmem w hw)
    have hlen : ¬(w.length ≤ 2) := by omega
    simp [hdig, hlen, hsing, hnS]
  rw [token_set, htl, hl]

/-- C5 witness: a two-token line whose tokens survive re-tokenization. -/
theorem c5_witness :
    token_set (joinWords ["war".data, "hostility".data]) COMMON_STOPWORDS =
      token_set "war hostilities".data COMMON_STOPWORDS :=
  c5_tokenize_idempotent "war hostilities".data (by decide)
    ["war".data, "hostility".data] (by decide)

/-- Trailing-punctuation stripping keeps the first character when the result
is nonempty. -/
theorem dropTrailingP_head :
    ∀ w : Str, dropTrailingP w = [] ∨ (dropTrailingP w).head? = w.head? := by
  intro w
  cases w with
  | nil => exact Or.inl rfl
  | cons c rest =>
    simp only [dropTrailingP]
    cases h : dropTrailingP rest with
    | nil =>
      by_cases hp : isPunct c = true
      · simp [hp]
      · right
        simp [hp]
    | cons d r' => exact Or.inr rfl

/-- Trailing-punctuation stripping is the identity on punctuation-free words. -/
theorem dropTrailingP_id :
    ∀ w : Str, (∀ c ∈ w, isPunct c = false) → dropTrailingP w = w := by
  intro w
  induction w with
  | nil => intro _; rfl
  | cons c rest ih =>
    intro h
    have hrest : dropTrailingP rest = rest := ih (fun d hd => h d (by simp [hd]))
    simp only [dropTrailingP, hrest]
    cases rest with
    | nil => simp [h c (by simp)]
    | cons d r' => rfl

/-- Alphanumeric characters are not strip-punctuation. -/
theorem alnum_not_punct {c : Char} (h : pyIsAlnum c = true) :
    isPunct c = false := by
  by_contra hp
  simp only [Bool.not_eq_false] at hp
  have hm : c ∈ punctChars := by
    simpa [isPunct, List.elem_iff] using hp
  have key : ∀ x ∈ punctChars, pyIsAlnum x = false := by decide
  rw [key c hm] at h
  exact absurd h (by simp)

/-- Every element of the highlighter's reference set is nonempty and starts
with an alphanumeric character. -/
theorem refSet_elem {u e : Str} (h : e ∈ refSet u) :
    ∃ hch : Char, e.head? = some hch ∧ pyIsAlnum hch = true := by
  simp only [refSet, List.mem_toFinset, List.mem_map] at h
  obtain ⟨t, ht, hte⟩ := h
  obtain ⟨htne, htchars⟩ := splitWs_sound _ t ht
  have htgood : ∀ c ∈ t, pyIsAlnum c = true ∧ pyLower c = c := by
    intro c hc
    rcases clean_text_char (htchars c hc).1 with hsp | hgood
    · rw [(htchars c hc).2] at hsp
      exact absurd hsp (by simp)
    · exact ⟨hgood.1, hgood.2.1⟩
  have hlower : lowerStr t = t := by
    have h1 : t.map pyLower = t.map id :=
      List.map_congr_left (fun c hc => (htgood c hc).2)
    simpa [lowerStr] using h1
  have hstrip : stripBoth t = t := by
    have hdw : t.dropWhile isPunct = t := by
      cases t with
      | nil => rfl
      | cons c t' =>
        have := alnum_not_punct (htgood c (by simp)).1
        simp [List.dropWhile, this]
    rw [stripBoth, hdw]
    exact dropTrailingP_id t (fun c hc => alnum_not_punct (htgood c hc).1)
  rw [hstrip, hlower] at hte
  obtain ⟨c0, t', ht0⟩ : ∃ c0 t', t = c0 :: t' := by
    cases t with
    | nil => exact absurd rfl htne
    | cons c0 t' => exact ⟨c0, t', rfl⟩
  subst ht0
  refine ⟨pyLower c0, ?_, ?_⟩
  · rw [← hte, singularize_head]
    simp [lowerStr]
  · have : pyLower c0 = c0 := (htgood c0 (by simp)).2
    rw [this]
    exact (htgood c0 (by simp)).1

/-- C6 counterexample: with double-spaced display text the highlighter keeps
every word plain but rejoins with single spaces, so the result is not the
display text unchanged. -/
theorem c6_counterexample :
    (∀ w ∈ splitWs "alpha  beta".data,
      singularize (lowerStr (dropTrailingP w)) ∈ refSet "alpha beta".data) ∧
      highlight_autocompleted "alpha beta".data "alpha  beta".data ≠
        "alpha  beta".data := by decide

/-- C6 (amended): when every whitespace-separated word of the display text,
after stripping trailing punctuation, lowercasing and singularizing, occurs
in the reference set built from the line, the highlighter wraps no word: it
returns exactly the words of the display text rejoined with single spaces —
equal to the display text itself whenever that text is already single-space
separated without leading or trailing whitespace. -/
theorem c6_highlight_noop (line display : Str)
    (h : ∀ w ∈ splitWs display,
      singularize (lowerStr (dropTrailingP w)) ∈ refSet line) :
    highlight_autocompleted line display = joinWords (splitWs display) ∧
      (joinWords (splitWs display) = display →
        highlight_autocompleted line display = display) := by
  have hkeep : ∀ w ∈ splitWs display,
      singularize (lowerStr (stripBoth w)) ∈ refSet line := by
    intro w hw
    have hmemref := h w hw
    obtain ⟨hch, hhead, halnum⟩ := refSet_elem hmemref
    have hdt_ne : dropTrailingP w ≠ [] := by
      intro hnil
      rw [hnil] at hhead
      simp [lowerStr, singularize] at hhead
    rcases dropTrailingP_head w with hnil | hh
    · exact absurd hnil hdt_ne
    obtain ⟨c0, w', hw0⟩ : ∃ c0 w', w = c0 :: w' := by
      cases w with
      | nil => exact absurd rfl (splitWs_sound display [] hw).1
      | cons c0 w' => exact ⟨c0, w', rfl⟩
    subst hw0
    obtain ⟨d0, dt', hdt0⟩ : ∃ d0 dt',
        dropTrailingP (c0 :: w') = d0 :: dt' := by
      cases hd : dropTrailingP (c0 :: w') with
      | nil => exact absurd hd hdt_ne
      | cons d0 dt' => exact ⟨d0, dt', rfl⟩
    have hd0 : d0 = c0 := by
      rw [hdt0] at hh
      simpa using hh
    subst hd0
    have hch_eq : hch = pyLower d0 := by
      rw [hdt0, singularize_head] at hhead
      simp only [lowerStr, List.map_cons, List.head?_cons] at hhead
      have := pyLower_fix (rfl : pyLower d0 = pyLower d0)
      simp [this] at hhead
      exact hhead.symm
    have hnp : isPunct d0 = false := by
      by_contra hp
      simp only [Bool.not_eq_false] at hp
      have hm : d0 ∈ punctChars := by
        simpa [isPunct, List.elem_iff] using hp
      have hfix : ∀ x ∈ punctChars, pyLower x = x ∧ pyIsAlnum x = false := by
        decide
      have h1 := (hfix d0 hm).1
      have h2 := (hfix d0 hm).2
      rw [hch_eq, h1] at halnum
      rw [h2] at halnum
      exact absurd halnum (by simp)
    have hsb : stripBoth (d0 :: w') = dropTrailingP (d0 :: w') := by
      rw [stripBoth]
      congr 1
      simp [List.dropWhile, hnp]
    rw [hsb]
    exact hmemref
  have hmap : (splitWs display).map (fun word =>
      if singularize (lowerStr (stripBoth word)) ∈ refSet line then word
      else spanWrap word) = (splitWs display).map id :=
    List.map_congr_left (fun w hw => by simp [hkeep w hw])
  constructor
  · simp only [highlight_autocompleted]
    rw [hmap, List.map_id]
  · intro hjd
    simp only [highlight_autocompleted]
    rw [hmap, List.map_id, hjd]

/-- C6 witness: trailing punctuation on a matching display word is tolerated
and the display text is returned unchanged. -/
theorem c6_witness :
    highlight_autocompleted "alpha beta".data "alpha beta.".data =
      "alpha beta.".data :=
  (c6_highlight_noop "alpha beta".data "alpha beta.".data (by decide)).2
    (by decide)

/-- Lookup after a `best_for_key` update: the queried key sees one
`bestStep`, every other key is untouched. -/
theorem lookupB_updateBest :
    ∀ (m : List (List Str × Nat × Nat)) (k k' : List Str) (i s : Nat),
      lookupB (updateBest m k i s) k' =
        if k' = k then bestStep (lookupB m k) (i, s) else lookupB m k' := by
  intro m
  induction m with
  | nil =>
    intro k k' i s
    by_cases h : k' = k
    · subst h
      simp [updateBest, lookupB, bestStep]
    · simp only [updateBest, lookupB, if_neg h]
      rw [if_neg (fun hh => h hh.symm)]
  | cons e rest ih =>
    intro k k' i s
    obtain ⟨k0, i0, s0⟩ := e
    by_cases h0 : k0 = k
    · subst h0
      by_cases hk : k' = k0
      · subst hk
        by_cases hs : s0 < s <;>
          simp [updateBest, lookupB, bestStep, hs]
      · have hk2 : ¬(k0 = k') := fun hh => hk hh.symm
        by_cases hs : s0 < s <;>
          simp [updateBest, lookupB, bestStep, hs, hk, hk2]
    · rw [show updateBest ((k0, i0, s0) :: rest) k i s =
        (k0, i0, s0) :: updateBest rest k i s from by
          simp [updateBest, h0]]
      by_cases hk : k0 = k'
      · subst hk
        simp only [lookupB, if_pos rfl]
        rw [if_neg h0]
        simp [lookupB]
      · simp only [lookupB, if_neg hk]
        rw [ih k k' i s]
        by_cases hkk : k' = k
        · rw [if_pos hkk, if_pos hkk, if_neg h0]
        · rw [if_neg hkk, if_neg hkk]

/-- The `best_for_key` fold, observed at one key, is the per-key `bestStep`
fold over exactly that key's entries, in input order. -/
theorem lookupB_buildBest (department : Str) :
    ∀ (es : List (Nat × (Option Clause × Nat)))
      (m : List (List Str × Nat × Nat)) (k : List Str),
      lookupB (buildBest department m es) k =
        List.foldl bestStep (lookupB m k) (relevantEntries department k es) := by
  intro es
  induction es with
  | nil => intro m k; rfl
  | cons p rest ih =>
    intro m k
    obtain ⟨i, r⟩ := p
    cases hr : r.1 with
    | none =>
      have hb : buildBest department m ((i, r) :: rest) =
          buildBest department m rest := by
        simp only [buildBest, hr]
      have hrel : relevantEntries department k ((i, r) :: rest) =
          relevantEntries department k rest := by
        simp only [relevantEntries, List.filterMap_cons, hr]
      rw [hb, hrel, ih]
    | some c =>
      have hb : buildBest department m ((i, r) :: rest) =
          buildBest department
            (updateBest m (uniqKey department c) i r.2) rest := by
        simp only [buildBest, hr]
      rw [hb, ih, lookupB_updateBest]
      by_cases hk : uniqKey department c = k
      · subst hk
        rw [if_pos rfl]
        have hrel : relevantEntries department (uniqKey department c)
            ((i, r) :: rest) =
            (i, r.2) :: relevantEntries department (uniqKey department c) rest := by
          simp [relevantEntries, List.filterMap_cons, hr]
        rw [hrel, List.foldl_cons]
      · rw [if_neg (fun hh => hk hh.symm)]
        have hrel : relevantEntries department k ((i, r) :: rest) =
            relevantEntries department k rest := by
          simp only [relevantEntries, List.filterMap_cons, hr, if_neg hk]
        rw [hrel]

/-- Characterisation of the per-key fold from a seeded accumulator: it
returns a listed pair of maximal score, and on score ties the pair with the
smallest index, provided indices strictly increase along the list. -/
theorem foldl_bestStep_char :
    ∀ (l : List (Nat × Nat)) (q : Nat × Nat),
      List.Pairwise (fun a b => a.1 < b.1) (q :: l) →
      ∃ r, List.foldl bestStep (some q) l = some r ∧ r ∈ q :: l ∧
        ∀ p ∈ q :: l, p.2 ≤ r.2 ∧ (p.2 = r.2 → r.1 ≤ p.1) := by
  intro l
  induction l with
  | nil =>
    intro q _
    refine ⟨q, rfl, by simp, fun p hp => ?_⟩
    have : p = q := by simpa using hp
    subst this
    exact ⟨le_rfl, fun _ => le_rfl⟩
  | cons p1 rest ih =>
    intro q hpw
    obtain ⟨hq_all, hpw2⟩ := List.pairwise_cons.mp hpw
    obtain ⟨hp1_all, hpwrest⟩ := List.pairwise_cons.mp hpw2
    by_cases hs : q.2 < p1.2
    · have hfold : List.foldl bestStep (some q) (p1 :: rest) =
          List.foldl bestStep (some p1) rest := by
        simp [bestStep, hs]
      have hpw' : List.Pairwise (fun a b => a.1 < b.1) (p1 :: rest) := hpw2
      obtain ⟨r, hr, hrmem, hrmax⟩ := ih p1 hpw'
      refine ⟨r, by rw [hfold]; exact hr, ?_, ?_⟩
      · rcases List.mem_cons.mp hrmem with h | h
        · simp [h]
        · simp [h]
      · intro p hp
        rcases List.mem_cons.mp hp with hpq | hrest'
      -- p = q
        · subst hpq
          have hp1r := hrmax p1 (by simp)
          exact ⟨le_trans (le_of_lt hs) hp1r.1,
            fun heq => absurd (lt_of_lt_of_le hs hp1r.1)
              (by rw [heq]; exact lt_irrefl _)⟩
        · exact hrmax p hrest'
    · have hfold : List.foldl bestStep (some q) (p1 :: rest) =
          List.foldl bestStep (some q) rest := by
        simp [bestStep, hs]
      have hpw' : List.Pairwise (fun a b => a.1 < b.1) (q :: rest) :=
        List.pairwise_cons.mpr
          ⟨fun b hb => hq_all b (by simp [hb]), hpwrest⟩
      obtain ⟨r, hr, hrmem, hrmax⟩ := ih q hpw'
      refine ⟨r, by rw [hfold]; exact hr, ?_, ?_⟩
      · rcases List.mem_cons.mp hrmem with h | h
        · simp [h]
        · simp [h]
      · intro p hp
        rcases List.mem_cons.mp hp with hpq | hrest'
        · subst hpq
          exact hrmax p (by simp)
        · rcases List.mem_cons.mp hrest' with hpp1 | hprest
          · subst hpp1
            have hqr := hrmax q (by simp)
            have hp1q : p.2 ≤ q.2 := Nat.le_of_not_lt hs
            refine ⟨le_trans hp1q hqr.1, fun heq => ?_⟩
            have hq2 : q.2 = r.2 := le_antisymm hqr.1 (heq ▸ hp1q)
            have hr1 : r.1 ≤ q.1 := hqr.2 hq2
            exact le_trans hr1 (le_of_lt (hq_all p (by simp)))
          · exact hrmax p (by simp [hprest])

/-- Index monotonicity of `enumFrom`. -/
theorem enumFrom_fst_lt :
    ∀ (l : List (Option Clause × Nat)) (n : Nat),
      List.Pairwise (fun a b => a.1 < b.1) (l.enumFrom n) := by
  intro l
  induction l with
  | nil => intro n; simp
  | cons a l ih =>
    intro n
    have hlow : ∀ x ∈ l.enumFrom (n + 1), n + 1 ≤ x.1 := by
      intro x hx
      exact (List.mem_enumFrom hx).1
    refine List.pairwise_cons.mpr ⟨?_, ih (n + 1)⟩
    intro b hb
    have := hlow b hb
    simp only []
    omega

/-- Index monotonicity survives the per-key filter. -/
theorem relevantEntries_pairwise (department : Str) (k : List Str) :
    ∀ es : List (Nat × (Option Clause × Nat)),
      List.Pairwise (fun a b => a.1 < b.1) es →
      List.Pairwise (fun a b => a.1 < b.1)
        (relevantEntries department k es) := by
  intro es
  induction es with
  | nil => intro _; simp [relevantEntries]
  | cons p rest ih =>
    intro h
    obtain ⟨hall, hrest⟩ := List.pairwise_cons.mp h
    cases hr : p.2.1 with
    | none =>
      have heq : relevantEntries department k (p :: rest) =
          relevantEntries department k rest := by
        simp [relevantEntries, List.filterMap_cons, hr]
      rw [heq]
      exact ih hrest
    | some c =>
      by_cases hk : uniqKey department c = k
      · have heq : relevantEntries department k (p :: rest) =
            (p.1, p.2.2) :: relevantEntries department k rest := by
          simp [relevantEntries, List.filterMap_cons, hr, hk]
        rw [heq]
        refine List.pairwise_cons.mpr ⟨?_, ih hrest⟩
        intro b hb
        simp only [relevantEntries, List.mem_filterMap] at hb
        obtain ⟨q, hq, hf⟩ := hb
        have hb1 : b.1 = q.1 := by
          cases hq1 : q.2.1 with
          | none => rw [hq1] at hf; simp at hf
          | some c' =>
            simp only [hq1] at hf
            split_ifs at hf
            injection hf with hf
            rw [← hf]
        have : p.1 < q.1 := hall q hq
        simpa [hb1] using this
      · have heq : relevantEntries department k (p :: rest) =
            relevantEntries department k rest := by
          simp [relevantEntries, List.filterMap_cons, hr, hk]
        rw [heq]
        exact ih hrest

/-- Membership in the per-key entry list, in terms of the source entries. -/
theorem mem_relevantEntries {department : Str} {k : List Str}
    {es : List (Nat × (Option Clause × Nat))} {b : Nat × Nat} :
    b ∈ relevantEntries department k es ↔
      ∃ c, (b.1, (some c, b.2)) ∈ es ∧ uniqKey department c = k := by
  constructor
  · intro h
    simp only [relevantEntries, List.mem_filterMap] at h
    obtain ⟨q, hq, hf⟩ := h
    cases hq1 : q.2.1 with
    | none => rw [hq1] at hf; simp at hf
    | some c =>
      simp only [hq1] at hf
      split_ifs at hf with hkk
      injection hf with hf
      refine ⟨c, ?_, hkk⟩
      have hq2 : q = (b.1, (some c, b.2)) := by
        rw [← hf]
        have : q.2 = (q.2.1, q.2.2) := rfl
        rw [show q = (q.1, (q.2.1, q.2.2)) from rfl, hq1]
      rw [← hq2]
      exact hq
  · intro ⟨c, hmem, hk⟩
    simp only [relevantEntries, List.mem_filterMap]
    exact ⟨(b.1, (some c, b.2)), hmem, by simp [hk]⟩

/-- Pointwise description of the resolver output: each line's verdict is a
function of its own scorer result and of the winner stored for its key. -/
theorem out_get (user_lines : List Str) (clauses : List Clause)
    (department : Str) (i : Nat) :
    (best_unique_matches user_lines clauses department).get? i =
      ((lineResults user_lines clauses).get? i).map (fun r =>
        match r.1 with
        | none => none
        | some m =>
          match lookupB (bestForKey user_lines clauses department)
              (uniqKey department m) with
          | some (widx, _) => if i = widx then some m else none
          | none => none) := by
  simp only [best_unique_matches, lineResults, bestForKey]
  rw [List.get?_map, List.get?_enum]
  cases (user_lines.map (fun ln => match_clause_with_score ln clauses)).get? i with
  | none => rfl
  | some r => rfl

/-- The stored winner for a key is a listed entry of that key with maximal
score, earliest index on ties; keys without entries are absent. -/
theorem lookup_char (user_lines : List Str) (clauses : List Clause)
    (department : Str) (k : List Str) :
    (lookupB (bestForKey user_lines clauses department) k = none ∧
      relevantEntries department k (lineResults user_lines clauses).enum = []) ∨
    ∃ r, lookupB (bestForKey user_lines clauses department) k = some r ∧
      r ∈ relevantEntries department k (lineResults user_lines clauses).enum ∧
      ∀ p ∈ relevantEntries department k (lineResults user_lines clauses).enum,
        p.2 ≤ r.2 ∧ (p.2 = r.2 → r.1 ≤ p.1) := by
  rw [bestForKey, lookupB_buildBest]
  have hpw : List.Pairwise (fun a b => a.1 < b.1)
      (relevantEntries department k (lineResults user_lines clauses).enum) := by
    apply relevantEntries_pairwise
    exact enumFrom_fst_lt (lineResults user_lines clauses) 0
  cases hrel : relevantEntries department k (lineResults user_lines clauses).enum with
  | nil => exact Or.inl ⟨rfl, rfl⟩
  | cons r0 l' =>
    rw [hrel] at hpw
    have hstep : List.foldl bestStep (lookupB [] k) (r0 :: l') =
        List.foldl bestStep (some r0) l' := by
      simp [lookupB, List.foldl_cons, bestStep]
    obtain ⟨r, hr, hrmem, hrmax⟩ := foldl_bestStep_char l' r0 hpw
    refine Or.inr ⟨r, ?_, by simp [hrmem], ?_⟩
    · rw [hstep, hr]
    · intro p hp
      exact hrmax p hp

/-- Unpacking an output entry that kept its match: the line matched that
clause itself, and it is the recorded winner of that clause's key. -/
theorem out_some_elim {user_lines : List Str} {clauses : List Clause}
    {department : Str} {i : Nat} {ci : Clause}
    (h : (best_unique_matches user_lines clauses department).get? i =
      some (some ci)) :
    ∃ si, (lineResults user_lines clauses).get? i = some (some ci, si) ∧
      ∃ s', lookupB (bestForKey user_lines clauses department)
        (uniqKey department ci) = some (i, s') := by
  rw [out_get] at h
  cases hres : (lineResults user_lines clauses).get? i with
  | none => rw [hres] at h; simp at h
  | some r =>
    rw [hres] at h
    simp only [Option.map_some'] at h
    injection h with h
    cases hr1 : r.1 with
    | none => simp [hr1] at h
    | some m =>
      simp only [hr1] at h
      cases hlk : lookupB (bestForKey user_lines clauses department)
          (uniqKey department m) with
      | none => simp [hlk] at h
      | some ws =>
        obtain ⟨widx, s'⟩ := ws
        simp only [hlk] at h
        by_cases hiw : i = widx
        · rw [if_pos hiw] at h
          injection h with hmc
          subst hmc
          subst hiw
          obtain ⟨r1, r2⟩ := r
          simp only at hr1
          subst hr1
          exact ⟨r2, rfl, ⟨s', hlk⟩⟩
        · rw [if_neg hiw] at h
          exact absurd h (by simp)

/-- The verdict at a matched line: it keeps its own clause exactly when it is
the recorded winner index of its key, and otherwise is demoted to `none`. -/
theorem out_at_matched {user_lines : List Str} {clauses : List Clause}
    {department : Str} {j : Nat} {cj : Clause} {sj : Nat}
    (hres : (lineResults user_lines clauses).get? j = some (some cj, sj)) :
    ∃ widx s', lookupB (bestForKey user_lines clauses department)
        (uniqKey department cj) = some (widx, s') ∧
      (best_unique_matches user_lines clauses department).get? j =
        some (if j = widx then some cj else none) := by
  have hmem : (j, sj) ∈ relevantEntries department (uniqKey department cj)
      (lineResults user_lines clauses).enum := by
    apply mem_relevantEntries.mpr
    exact ⟨cj, List.mk_mem_enum_iff_get?.mpr hres, rfl⟩
  rcases lookup_char user_lines clauses department (uniqKey department cj) with
    ⟨_, hempty⟩ | ⟨r, hlk, _, _⟩
  · rw [hempty] at hmem
    exact absurd hmem (by simp)
  · refine ⟨r.1, r.2, by rw [hlk], ?_⟩
    rw [out_get, hres]
    simp only [Option.map_some']
    rw [hlk]

/-- C2: global uniqueness of the resolver.  (1) At most one output line holds
a match for any uniqueness key — `(name)` under the Liability department,
`(name, limit)` otherwise.  (2) The line that keeps its match carries the
maximal individual score among the lines matching that key, and on score
ties it is the earliest such input line.  (3) A matched line either keeps
its own clause or is demoted to no match.  (4) Some line keeps each
contested key, and every other line matching that key is demoted.  (5)
Unmatched lines stay unmatched. -/
theorem c2_resolver_global_uniqueness (user_lines : List Str)
    (clauses : List Clause) (department : Str) :
    (∀ i j ci cj,
      (best_unique_matches user_lines clauses department).get? i =
        some (some ci) →
      (best_unique_matches user_lines clauses department).get? j =
        some (some cj) →
      uniqKey department ci = uniqKey department cj → i = j) ∧
    (∀ i ci,
      (best_unique_matches user_lines clauses department).get? i =
        some (some ci) →
      ∃ si, (lineResults user_lines clauses).get? i = some (some ci, si) ∧
        ∀ j cj sj,
          (lineResults user_lines clauses).get? j = some (some cj, sj) →
          uniqKey department cj = uniqKey department ci →
          sj ≤ si ∧ (sj = si → i ≤ j)) ∧
    (∀ j cj sj,
      (lineResults user_lines clauses).get? j = some (some cj, sj) →
      (best_unique_matches user_lines clauses department).get? j =
          some (some cj) ∨
        (best_unique_matches user_lines clauses department).get? j =
          some none) ∧
    (∀ j cj sj,
      (lineResults user_lines clauses).get? j = some (some cj, sj) →
      ∃ i ci,
        (best_unique_matches user_lines clauses department).get? i =
          some (some ci) ∧
        uniqKey department ci = uniqKey department cj ∧
        (i ≠ j →
          (best_unique_matches user_lines clauses department).get? j =
            some none)) ∧
    (∀ i s,
      (lineResults user_lines clauses).get? i = some (none, s) →
      (best_unique_matches user_lines clauses department).get? i =
        some none) := by
  refine ⟨?_, ?_, ?_, ?_, ?_⟩
  · intro i j ci cj hi hj hkey
    obtain ⟨si, hresi, s1, hlki⟩ := out_some_elim hi
    obtain ⟨sj, hresj, s2, hlkj⟩ := out_some_elim hj
    rw [hkey] at hlki
    rw [hlki] at hlkj
    have := hlkj
    simp only [Option.some.injEq, Prod.mk.injEq] at this
    exact this.1
  · intro i ci hi
    obtain ⟨si, hresi, s', hlki⟩ := out_some_elim hi
    refine ⟨si, hresi, ?_⟩
    intro j cj sj hresj hkeyj
    rcases lookup_char user_lines clauses department (uniqKey department ci)
      with ⟨hnone, _⟩ | ⟨r, hlk2, hrmem, hrmax⟩
    · rw [hnone] at hlki
      exact absurd hlki (by simp)
    · rw [hlki] at hlk2
      have hri : r = (i, s') := by
        injection hlk2 with h
        exact h.symm
      obtain ⟨c, hmem_es, _⟩ := mem_relevantEntries.mp hrmem
      have hres2 := List.mk_mem_enum_iff_get?.mp hmem_es
      rw [hri] at hres2
      simp only at hres2
      rw [hresi] at hres2
      simp only [Option.some.injEq, Prod.mk.injEq] at hres2
      have hsi : s' = si := hres2.2.symm
      have hmemj : (j, sj) ∈ relevantEntries department
          (uniqKey department ci) (lineResults user_lines clauses).enum :=
        mem_relevantEntries.mpr ⟨cj, List.mk_mem_enum_iff_get?.mpr hresj, hkeyj⟩
      have hb := hrmax (j, sj) hmemj
      rw [hri] at hb
      simp only at hb
      rw [hsi] at hb
      exact hb
  · intro j cj sj hresj
    obtain ⟨widx, s', hlk, hout⟩ :=
      @out_at_matched user_lines clauses department j cj sj hresj
    by_cases hjw : j = widx
    · left
      rw [hout, if_pos hjw]
    · right
      rw [hout, if_neg hjw]
  · intro j cj sj hresj
    obtain ⟨widx, s', hlk, hout⟩ :=
      @out_at_matched user_lines clauses department j cj sj hresj
    rcases lookup_char user_lines clauses department (uniqKey department cj)
      with ⟨hnone, _⟩ | ⟨r, hlk2, hrmem, _⟩
    · rw [hnone] at hlk
      exact absurd hlk (by simp)
    · rw [hlk] at hlk2
      have hri : r = (widx, s') := by
        injection hlk2 with h
        exact h.symm
      obtain ⟨cw, hmem_es, hkeycw⟩ := mem_relevantEntries.mp hrmem
      have hresw := List.mk_mem_enum_iff_get?.mp hmem_es
      rw [hri] at hresw
      simp only at hresw
      obtain ⟨widx2, s'', hlkw, houtw⟩ :=
        @out_at_matched user_lines clauses department widx cw s' hresw
      rw [hkeycw] at hlkw
      rw [hlk] at hlkw
      have hw2 : widx2 = widx := by
        simp only [Option.some.injEq, Prod.mk.injEq] at hlkw
        exact hlkw.1.symm
      refine ⟨widx, cw, ?_, hkeycw, ?_⟩
      · rw [houtw, if_pos hw2.symm]
      · intro hne
        rw [hout, if_neg (fun hh => hne (by rw [hh]))]
  · intro i s hres
    rw [out_get, hres]
    rfl

/-- C2 witness: under the Property department, the line that matched
`warClause` with the keyword-only score 10 either keeps it or is demoted
(here it is demoted, since line 0 scored 15 for the same key). -/
theorem c2_witness :
    (best_unique_matches [warLine, hostiLine] [warClause]
        "Property / Special Risks".data).get? 1 = some (some warClause) ∨
      (best_unique_matches [warLine, hostiLine] [warClause]
        "Property / Special Risks".data).get? 1 = some none :=
  (c2_resolver_global_uniqueness [warLine, hostiLine] [warClause]
    "Property / Special Risks".data).2.2.1 1 warClause 10 (by decide)

end Nervyra
